import Mathlib

set_option linter.unusedSectionVars false

/-!
# pYIN: shallow embedding of `PYinVamp.cpp` and `Yin.cpp`

The embedding works over an arbitrary linearly ordered field `K` with a
floor function, standing for the C++ types `float` and `double` with exact
arithmetic (no rounding).  It is instantiated at `ℚ` for executable
evaluation and at `ℝ` where the transcendental functions of `libm` are
needed.

Conventions of the embedding:

* `size_t` and `int` values are natural numbers and integers; the two
  places where unsigned wrap-around is reachable (`nFrame-2` in
  `addNoteFeatures`, `frameSize-1` in the `Yin` constructor) are written
  with an explicit `% 2^64`.  Overflow of `int` is not modelled.
* A read outside a vector or deque is undefined behaviour in C++; the
  embedding returns `none` there.
* A floating-point division whose divisor may be zero is modelled by `fdiv`,
  which keeps the IEEE results `+inf`, `-inf` and `NaN` apart from finite
  quotients.
* `Vamp::RealTime` values are measured in samples at the rate
  `lrintf(m_inputSampleRate)`, so `RealTime::frame2RealTime(frame, rate)` is
  the sample count `frame` itself; its rounding to nanoseconds is not
  modelled.
* The classes `YinUtil`, `MonoPitchHMM` and `MonoNote` and the functions of
  `libm` are not part of the two source files; their operations are
  parameters of the embedding.
-/

namespace PYin

variable {K : Type} [LinearOrderedField K] [FloorRing K] {H : Type}

/-! ## Floating-point division -/

/-- Result of an IEEE division: a finite quotient, an infinity or `NaN`. -/
inductive FDiv (K : Type) where
  | fin (q : K) : FDiv K
  | posInf : FDiv K
  | negInf : FDiv K
  | nan : FDiv K

/-- The quotient `a / b` of two finite values. -/
def fdiv (a b : K) : FDiv K :=
  if b = 0 then
    (if 0 < a then FDiv.posInf else if a < 0 then FDiv.negInf else FDiv.nan)
  else FDiv.fin (a / b)

/-- The comparison `x > s` for a quotient `x` and a finite `s`. -/
def FDiv.gt (x : FDiv K) (s : K) : Bool :=
  match x with
  | FDiv.fin q => decide (s < q)
  | FDiv.posInf => true
  | FDiv.negInf => false
  | FDiv.nan => false

/-- The comparison `n >= x` for a finite `n` and a quotient `x`. -/
def FDiv.le (x : FDiv K) (n : K) : Bool :=
  match x with
  | FDiv.fin q => decide (q ≤ n)
  | FDiv.posInf => false
  | FDiv.negInf => true
  | FDiv.nan => false

/-- Conversion of a floating-point value to `int`: truncation toward zero. -/
def truncToInt (x : K) : Int :=
  if 0 ≤ x then Int.floor x else Int.ceil x

/-! ## External collaborators -/

/-- The functions of `libm` used by the two files: `std::log`, `std::pow`
and `sqrt`. -/
structure Libm (K : Type) where
  log : K → K
  pow : K → K → K
  sqrt : K → K

/-- Operations of class `YinUtil` (declared in `YinUtil.h`).  A difference
function maps the input frame to the `yinBuffer` it fills. -/
structure YinUtil (K : Type) where
  fastDifference : List K → List K
  slowDifference : List K → List K
  cumulativeDifference : List K → List K
  yinProb : List K → Nat → List K
  parabolicInterpolation : List K → Nat → K
  sumSquare : List K → Nat → Nat → K

/-- Operations of class `MonoPitchHMM` on its state `H`. -/
structure MonoPitchHMM (K H : Type) where
  construct : Int → H
  m_fixedLag : H → Int
  calculateObsProb : H → List (K × K) → List K
  initialise : H → List K → H
  process : H → List K → H
  track : H → List Int
  nearestFreq : H → Int → List (K × K) → K

/-! ## `Yin.cpp` -/

/-- Data members of class `Yin`. -/
structure Yin (K : Type) where
  m_frameSize : Nat
  m_inputSampleRate : Nat
  m_thresh : K
  m_threshDistr : Nat
  m_yinBufferSize : Nat
  m_fast : Bool
  m_yinUtil : YinUtil K

/-- The test `frameSize & (frameSize-1)` of the constructor, on a 64-bit
`size_t`. -/
def notPowerOfTwo (frameSize : Nat) : Bool :=
  Nat.land frameSize ((frameSize + 2 ^ 64 - 1) % 2 ^ 64) != 0

/-- The constructor `Yin::Yin`.  The result is `Except.error` when the
constructor throws.  The `throw` in the body of the power-of-two test is
commented out in the source, so both branches construct the object. -/
def Yin.new (mkUtil : Nat → YinUtil K) (frameSize inputSampleRate : Nat) (thresh : K)
    (fast : Bool) : Except String (Yin K) :=
  let y : Yin K :=
    { m_frameSize := frameSize
      m_inputSampleRate := inputSampleRate
      m_thresh := thresh
      m_threshDistr := 2
      m_yinBufferSize := frameSize / 2
      m_fast := fast
      m_yinUtil := mkUtil (frameSize / 2) }
  if notPowerOfTwo frameSize then
    -- throw "N must be a power of two";
    Except.ok y
  else
    Except.ok y

/-- The setter `Yin::setThresholdDistr`, with its return value. -/
def Yin.setThresholdDistr (y : Yin K) (parameter : K) : Yin K × Int :=
  ({ y with m_threshDistr := (truncToInt parameter).toNat }, 0)

/-- The setter `Yin::setFrameSize`, with its return value. -/
def Yin.setFrameSize (y : Yin K) (parameter : Nat) : Yin K × Int :=
  ({ y with m_frameSize := parameter, m_yinBufferSize := parameter / 2 }, 0)

/-- The setter `Yin::setFast`, with its return value. -/
def Yin.setFast (y : Yin K) (parameter : Bool) : Yin K × Int :=
  ({ y with m_fast := parameter }, 0)

/-- The output record `Yin::YinOutput`. -/
structure YinOutput (K : Type) where
  f0 : K
  periodicity : K
  rms : K
  salience : List K
  freqProb : List (K × K)

/-- One iteration of the second loop of `Yin::processProbabilisticYin`. -/
def yinCandidateStep (y : Yin K) (yinBuffer peakProbability : List K)
    (yo : YinOutput K) (iBuf : Nat) : Option (YinOutput K) :=
  match peakProbability[iBuf]? with
  | none => none
  | some p =>
    let yo1 := { yo with salience := yo.salience ++ [p] }
    if 0 < p then
      let currentF0 : K :=
        (y.m_inputSampleRate : K) *
          (1 / y.m_yinUtil.parabolicInterpolation yinBuffer iBuf)
      some { yo1 with freqProb := yo1.freqProb ++ [(currentF0, p)] }
    else some yo1

/-- One iteration of the `probSum` loop of `Yin::processProbabilisticYin`. -/
def probSumStep (peakProbability : List K) (probSum : K) (iBin : Nat) : Option K :=
  match peakProbability[iBin]? with
  | none => none
  | some p => some (probSum + p)

/-- The `yinBuffer` of a frame: the difference function selected by `m_fast`
followed by `cumulativeDifference`. -/
def Yin.yinBuffer (y : Yin K) (input : List K) : List K :=
  y.m_yinUtil.cumulativeDifference
    (if y.m_fast then y.m_yinUtil.fastDifference input
     else y.m_yinUtil.slowDifference input)

/-- The vector `peakProbability` returned by `yinProb` for a frame. -/
def Yin.peakProbability (y : Yin K) (input : List K) : List K :=
  y.m_yinUtil.yinProb (y.yinBuffer input) y.m_threshDistr

/-- The method `Yin::processProbabilisticYin`. -/
def Yin.processProbabilisticYin (M : Libm K) (y : Yin K) (input : List K) :
    Option (YinOutput K) :=
  let yinBuffer := y.yinBuffer input
  let peakProbability := y.peakProbability input
  match (List.range y.m_yinBufferSize).foldlM (probSumStep peakProbability) 0 with
  | none => none
  | some _ =>
    let rms := M.sqrt (y.m_yinUtil.sumSquare input 0 y.m_yinBufferSize / (y.m_yinBufferSize : K))
    let yo : YinOutput K := { f0 := 0, periodicity := 0, rms := rms, salience := [], freqProb := [] }
    (List.range y.m_yinBufferSize).foldlM (yinCandidateStep y yinBuffer peakProbability) yo

/-! ## `PYinVamp.cpp` -/

/-- A `Vamp::RealTime` value, in samples. -/
abbrev RealTime := Int

/-- The conversion `RealTime::frame2RealTime(frame, rate)`. -/
def frame2RealTime (frame : Int) : RealTime := frame

/-- The members of `Vamp::Plugin::Feature` that the plugin sets. -/
structure Feature (K : Type) where
  timestamp : RealTime
  duration : RealTime
  values : List K

/-- The `FeatureSet` of one call, one list of features per output:
`m_oF0Candidates`, `m_oF0Probs`, `m_oVoicedProb`, `m_oCandidateSalience`,
`m_oSmoothedPitchTrack` and `m_oNotes`. -/
structure FeatureSet (K : Type) where
  f0candidates : List (Feature K)
  f0probs : List (Feature K)
  voicedprob : List (Feature K)
  candidatesalience : List (Feature K)
  smoothedpitchtrack : List (Feature K)
  notes : List (Feature K)

/-- The empty `FeatureSet`. -/
def FeatureSet.empty : FeatureSet K :=
  { f0candidates := [], f0probs := [], voicedprob := [], candidatesalience := [],
    smoothedpitchtrack := [], notes := [] }

/-- Data members of class `PYinVamp`. -/
structure PYinVamp (K H : Type) where
  m_inputSampleRate : K
  m_channels : Nat
  m_stepSize : Nat
  m_blockSize : Nat
  m_yin : Yin K
  m_threshDistr : K
  m_fixedLag : K
  m_outputUnvoiced : K
  m_preciseTime : K
  m_lowAmp : K
  m_onsetSensitivity : K
  m_pruneThresh : K
  m_pitchHmm : H
  m_pitchProb : List (List (K × K))
  m_timestamp : List RealTime
  m_level : List K
  m_pitchTrack : List K

/-- The accessor `PYinVamp::getMinChannelCount`. -/
def getMinChannelCount : Nat := 1

/-- The accessor `PYinVamp::getMaxChannelCount`. -/
def getMaxChannelCount : Nat := 1

/-- The method `PYinVamp::reset`. -/
def PYinVamp.reset (P : MonoPitchHMM K H) (s : PYinVamp K H) : PYinVamp K H :=
  let y1 := (s.m_yin.setThresholdDistr s.m_threshDistr).1
  let y2 := (y1.setFrameSize s.m_blockSize).1
  let y3 := (y2.setFast (decide (s.m_preciseTime = 0))).1
  { s with
    m_yin := y3
    m_pitchHmm := if 1 / 2 < s.m_fixedLag then P.construct 100 else P.construct 0
    m_pitchProb := []
    m_timestamp := []
    m_level := []
    m_pitchTrack := [] }

/-- The method `PYinVamp::initialise`: the returned flag and the new state. -/
def PYinVamp.initialise (P : MonoPitchHMM K H) (s : PYinVamp K H)
    (channels stepSize blockSize : Nat) : Bool × PYinVamp K H :=
  if channels < getMinChannelCount ∨ channels > getMaxChannelCount then (false, s)
  else
    (true, PYinVamp.reset P
      { s with m_channels := channels, m_stepSize := stepSize, m_blockSize := blockSize })

/-- The analysis offset `m_preciseTime == 1.0 ? m_blockSize/2 : m_blockSize/4`
computed by both `process` and `addNoteFeatures`. -/
def PYinVamp.offset (s : PYinVamp K H) : Int :=
  if s.m_preciseTime = 1 then ((s.m_blockSize / 2 : Nat) : Int)
  else ((s.m_blockSize / 4 : Nat) : Int)

/-- One step of the `std::accumulate` call of `process`.  Its initial value
is the `int` literal `0`, so the accumulator has type `int`: the lambda
returns the `double` value `acc + val*val`, which is converted back to `int`
when it is assigned to the accumulator. -/
def accumulateStep (acc : Int) (val : K) : Int :=
  truncToInt ((acc : K) + val * val)

/-- The local `rms` of `process`: the accumulated value divided by the block
size, then `sqrt`. -/
def frameRms (M : Libm K) (blockSize : Nat) (samples : List K) : K :=
  M.sqrt ((((samples.take blockSize).foldl accumulateStep 0 : Int) : K) / (blockSize : K))

/-- The flag `isLowAmplitude` of `process`.  With a block size of zero the
quotient is `0/0`, a `NaN`, which compares false. -/
def isLowAmplitude (blockSize : Nat) (rms lowAmp : K) : Bool :=
  decide (blockSize ≠ 0) && decide (rms < lowAmp)

/-- The loop of `process` that fills `tempPitchProb`: every candidate is
converted to log-pitch and, on a low-amplitude frame, its probability is
scaled by `factor`. -/
def tempPitchProb (M : Libm K) (lowAmp rms : K) (low : Bool) (freqProb : List (K × K)) :
    List (K × K) :=
  freqProb.map (fun c =>
    let tempPitch := 12 * M.log (c.1 / 440) / M.log 2 + 69
    if !low then (tempPitch, c.2)
    else
      let factor := (rms + (1 / 100) * lowAmp) / ((101 / 100) * lowAmp)
      (tempPitch, c.2 * factor))

/-- The output-mode branch of `process` for the smoothed pitch track: the
values of the feature pushed to `m_oSmoothedPitchTrack`, or `none` when no
feature is pushed. -/
def processPitchOutput (outputUnvoiced freq : K) : Option (List K) :=
  if freq < 0 ∧ outputUnvoiced = 0 then none
  else
    if outputUnvoiced = 1 then some [|freq|]
    else some [freq]

/-- The output-mode branch of the loop of `getRemainingFeatures`. -/
def remainingPitchOutput (outputUnvoiced freq : K) : Option (List K) :=
  if freq < 0 ∧ outputUnvoiced = 0 then none
  else if outputUnvoiced = 1 then some [|freq|]
  else some [freq]

/-- The fixed-lag block of `process`, run after the new frame was pushed to
`m_pitchProb` and `m_timestamp`: the new state and the features pushed to
`m_oSmoothedPitchTrack`. -/
def fixedLagEmit (P : MonoPitchHMM K H) (s : PYinVamp K H) :
    Option (PYinVamp K H × List (Feature K)) :=
  let lag := P.m_fixedLag s.m_pitchHmm
  if 1 / 2 < s.m_fixedLag then
    if (s.m_timestamp.length : Int) = lag + 1 then
      match s.m_timestamp, s.m_pitchProb with
      | _ :: ts, _ :: pp =>
        let rawPitchPath := P.track s.m_pitchHmm
        match rawPitchPath[0]?, pp[0]?, ts[0]? with
        | some st0, some pp0, some ts0 =>
          let freq := P.nearestFreq s.m_pitchHmm st0 pp0
          let s1 := { s with m_timestamp := ts, m_pitchProb := pp,
                             m_pitchTrack := s.m_pitchTrack ++ [freq] }
          match processPitchOutput s.m_outputUnvoiced freq with
          | none => some (s1, [])
          | some vals => some (s1, [{ timestamp := ts0, duration := 0, values := vals }])
        | _, _, _ => none
      | _, _ => none
    else some (s, [])
  else some (s, [])

/-- Lines 488 to 531 of `process`: the candidates `tpp` of the new frame are
handed to the tracker, the frame is pushed to `m_pitchProb` and `m_timestamp`,
and the fixed-lag block runs. -/
def trackFrame (P : MonoPitchHMM K H) (s : PYinVamp K H) (tpp : List (K × K))
    (timestamp : RealTime) : Option (PYinVamp K H × List (Feature K)) :=
  let tempObsProb := P.calculateObsProb s.m_pitchHmm tpp
  let hmm :=
    if s.m_timestamp.isEmpty then P.initialise s.m_pitchHmm tempObsProb
    else P.process s.m_pitchHmm tempObsProb
  fixedLagEmit P { s with
    m_pitchHmm := hmm
    m_pitchProb := s.m_pitchProb ++ [tpp]
    m_timestamp := s.m_timestamp ++ [timestamp] }

/-- The local `voicedProb` of `process`: the candidate probabilities added up
from zero. -/
def voicedProb (freqProb : List (K × K)) : K :=
  freqProb.foldl (fun acc c => acc + c.2) 0

/-- The method `PYinVamp::process` on one frame `inputBuffers[0]`. -/
def PYinVamp.process (M : Libm K) (P : MonoPitchHMM K H) (s : PYinVamp K H)
    (inputBuffers : List K) (timestamp : RealTime) :
    Option (PYinVamp K H × FeatureSet K) :=
  let timestamp := timestamp + frame2RealTime s.offset
  if inputBuffers.length < s.m_blockSize then none
  else
    let dInputBuffers := inputBuffers.take s.m_blockSize
    let rms := frameRms M s.m_blockSize inputBuffers
    let low := isLowAmplitude s.m_blockSize rms s.m_lowAmp
    match s.m_yin.processProbabilisticYin M dInputBuffers with
    | none => none
    | some yo =>
      let tpp := tempPitchProb M s.m_lowAmp rms low yo.freqProb
      match trackFrame P { s with m_level := s.m_level ++ [yo.rms] } tpp timestamp with
      | none => none
      | some (s2, smoothed) =>
        some (s2,
          { f0candidates :=
              [{ timestamp := timestamp, duration := 0, values := yo.freqProb.map (fun c => c.1) }]
            f0probs :=
              [{ timestamp := timestamp, duration := 0, values := yo.freqProb.map (fun c => c.2) }]
            voicedprob :=
              [{ timestamp := timestamp, duration := 0, values := [voicedProb yo.freqProb] }]
            candidatesalience :=
              [{ timestamp := timestamp, duration := 0, values := yo.salience }]
            smoothedpitchtrack := smoothed
            notes := [] })

/-- A stream of frames, given by their candidates and corrected timestamps,
fed one by one to `trackFrame`: the final state and, per call, the features
that call pushed to `m_oSmoothedPitchTrack`. -/
def trackFrames (P : MonoPitchHMM K H) :
    PYinVamp K H → List (List (K × K) × RealTime) → Option (PYinVamp K H × List (List (Feature K)))
  | s, [] => some (s, [])
  | s, fr :: rest =>
    match trackFrame P s fr.1 fr.2 with
    | none => none
    | some (s1, out) =>
      match trackFrames P s1 rest with
      | none => none
      | some (s2, outs) => some (s2, out :: outs)

/-- The `noteState` members of the frames returned by `MonoNote::process`,
for a `MonoNote` constructed with the given fixed-lag flag. -/
structure MonoNote (K : Type) where
  process : Bool → List (List (K × K)) → List Int

/-- The first loop of `addNoteFeatures`: a frame with a positive frequency
carries one log-pitch observation, any other frame carries none. -/
def smoothedPitchOf (M : Libm K) (pitchTrack : List K) : List (List (K × K)) :=
  pitchTrack.map (fun freq =>
    if 0 < freq then [(12 * M.log (freq / 440) / M.log 2 + 69, 9 / 10)] else [])

/-- The value assigned to `isVoiced` at frame `iFrame`, evaluated left to
right with short-circuit; `nFrame-2` is computed in `size_t`. -/
def isVoicedAt (mnOut : List Int) (smoothedPitch : List (List (K × K))) (level : List K)
    (onsetSensitivity : K) (nFrame iFrame : Nat) : Option Bool :=
  match mnOut[iFrame]? with
  | none => none
  | some noteState =>
    if noteState < 3 then
      match smoothedPitch[iFrame]? with
      | none => none
      | some sp =>
        if 0 < sp.length then
          if (nFrame + 2 ^ 64 - 2) % 2 ^ 64 ≤ iFrame then some true
          else
            match level[iFrame]?, level[iFrame + 2]? with
            | some a, some b => some ((fdiv a b).gt onsetSensitivity)
            | _, _ => none
        else some false
    else some false

/-- The local variables of the main loop of `addNoteFeatures` together with
the features pushed to `m_oNotes`. -/
structure NoteLoop (K : Type) where
  onsetFrame : Int
  oldIsVoiced : Bool
  notePitchTrack : List K
  notes : List (Feature K)

/-- The local `minNoteFrames`. -/
def minNoteFrames (s : PYinVamp K H) : FDiv K :=
  fdiv (s.m_inputSampleRate * s.m_pruneThresh) (s.m_stepSize : K)

/-- The note feature pushed when a note is written: the median of the sorted
pitch track converted to Hz, from `onsetFrame` to `iFrame`. -/
def noteFeature (M : Libm K) (s : PYinVamp K H) (onsetFrame : Int) (iFrame : Nat)
    (notePitchTrack : List K) : Option (Feature K) :=
  let sorted := notePitchTrack.insertionSort (fun a b => a ≤ b)
  match sorted[notePitchTrack.length / 2]? with
  | none => none
  | some medianPitch =>
    let medianFreq := M.pow 2 ((medianPitch - 69) / 12) * 440
    let timestampOffset := frame2RealTime s.offset
    let start := frame2RealTime (onsetFrame * (s.m_stepSize : Int)) + timestampOffset
    let stop := frame2RealTime ((iFrame : Int) * (s.m_stepSize : Int)) + timestampOffset
    some { timestamp := start, duration := stop - start, values := [medianFreq] }

/-- The body of the main loop of `addNoteFeatures` at frame `iFrame`. -/
def noteFrame (M : Libm K) (s : PYinVamp K H) (mnOut : List Int)
    (smoothedPitch : List (List (K × K))) (nFrame : Nat) (st : NoteLoop K) (iFrame : Nat) :
    Option (NoteLoop K) :=
  match isVoicedAt mnOut smoothedPitch s.m_level s.m_onsetSensitivity nFrame iFrame with
  | none => none
  | some isVoiced =>
    if isVoiced = true ∧ iFrame ≠ nFrame - 1 then
      let onsetFrame := if st.oldIsVoiced = false then (iFrame : Int) else st.onsetFrame
      match smoothedPitch[iFrame]? with
      | none => none
      | some sp =>
        match sp[0]? with
        | none => none
        | some pp =>
          some { onsetFrame := onsetFrame, oldIsVoiced := isVoiced,
                 notePitchTrack := st.notePitchTrack ++ [pp.1], notes := st.notes }
    else
      if st.oldIsVoiced = true then
        if (minNoteFrames s).le (st.notePitchTrack.length : K) then
          match noteFeature M s st.onsetFrame iFrame st.notePitchTrack with
          | none => none
          | some f =>
            some { onsetFrame := st.onsetFrame, oldIsVoiced := isVoiced,
                   notePitchTrack := [], notes := st.notes ++ [f] }
        else
          some { onsetFrame := st.onsetFrame, oldIsVoiced := isVoiced,
                 notePitchTrack := [], notes := st.notes }
      else
        some { st with oldIsVoiced := isVoiced }

/-- The main loop of `addNoteFeatures` over the first `k` frames. -/
def noteLoop (M : Libm K) (s : PYinVamp K H) (mnOut : List Int)
    (smoothedPitch : List (List (K × K))) (nFrame k : Nat) : Option (NoteLoop K) :=
  (List.range k).foldlM (noteFrame M s mnOut smoothedPitch nFrame)
    { onsetFrame := 0, oldIsVoiced := false, notePitchTrack := [], notes := [] }

/-- The method `PYinVamp::addNoteFeatures`: the features it pushes to
`m_oNotes`. -/
def PYinVamp.addNoteFeatures (M : Libm K) (N : MonoNote K) (s : PYinVamp K H) :
    Option (List (Feature K)) :=
  let smoothedPitch := smoothedPitchOf M s.m_pitchTrack
  let mnOut := N.process (decide (1 / 2 < s.m_fixedLag)) smoothedPitch
  let nFrame := s.m_pitchTrack.length
  (noteLoop M s mnOut smoothedPitch nFrame nFrame).map (fun st => st.notes)

/-- One iteration of the pitch-track loop of `getRemainingFeatures`: the
frequency is appended to `m_pitchTrack` and, depending on the output mode,
a feature is pushed to `m_oSmoothedPitchTrack`. -/
def remainingStep (P : MonoPitchHMM K H) (s0 : PYinVamp K H) (rawPitchPath : List Int)
    (acc : List K × List (Feature K)) (iFrame : Nat) : Option (List K × List (Feature K)) :=
  match rawPitchPath[iFrame]?, s0.m_pitchProb[iFrame]?, s0.m_timestamp[iFrame]? with
  | some st, some pp, some ts =>
    let freq := P.nearestFreq s0.m_pitchHmm st pp
    match remainingPitchOutput s0.m_outputUnvoiced freq with
    | none => some (acc.1 ++ [freq], acc.2)
    | some vals =>
      some (acc.1 ++ [freq], acc.2 ++ [{ timestamp := ts, duration := 0, values := vals }])
  | _, _, _ => none

/-- The method `PYinVamp::getRemainingFeatures`. -/
def PYinVamp.getRemainingFeatures (M : Libm K) (P : MonoPitchHMM K H) (N : MonoNote K)
    (s : PYinVamp K H) : Option (PYinVamp K H × FeatureSet K) :=
  if s.m_pitchProb.isEmpty then some (s, FeatureSet.empty)
  else
    let rawPitchPath := P.track s.m_pitchHmm
    match (List.range rawPitchPath.length).foldlM (remainingStep P s rawPitchPath)
        (s.m_pitchTrack, []) with
    | none => none
    | some (track, smoothed) =>
      let s1 := { s with m_pitchTrack := track }
      match s1.addNoteFeatures M N with
      | none => none
      | some notes =>
        some (s1, { (FeatureSet.empty : FeatureSet K) with
                    smoothedpitchtrack := smoothed, notes := notes })

/-! ## Specification-level vocabulary for the note loop -/

/-- The log-pitch `69 + 12 log2(f / 440)` of a frequency, as both `process`
and `addNoteFeatures` compute it. -/
def logPitch (M : Libm K) (freq : K) : K :=
  12 * M.log (freq / 440) / M.log 2 + 69

/-- The frequency `440 * 2^((m - 69) / 12)` of a log-pitch, as
`addNoteFeatures` computes it. -/
def pitchFreq (M : Libm K) (m : K) : K :=
  M.pow 2 ((m - 69) / 12) * 440

/-- The log-pitch observation `smoothedPitch[i][0].first` of frame `i`, zero
for a frame without observation. -/
def pitchAt (smoothedPitch : List (List (K × K))) (i : Nat) : K :=
  match smoothedPitch[i]? with
  | some (pp :: _) => pp.1
  | _ => 0

/-- The frame takes the note branch of the loop: it is voiced and is not
the last frame. -/
def inRun (v : Nat → Bool) (nFrame i : Nat) : Bool :=
  v i && decide (i ≠ nFrame - 1)

/-- Start of the maximal block of frames satisfying `r` that ends just
before frame `k` (it is `k` itself when frame `k - 1` fails `r`). -/
def runStart (r : Nat → Bool) : Nat → Nat
  | 0 => 0
  | k + 1 => if r k then runStart r k else k + 1

/-- The voiced runs closed strictly before frame `k`: pairs `(a, b)` with
`b < k` such that the frames `a, ..., b - 1` satisfy `r`, frame `b` does not
and the block cannot be extended to the left. -/
def closedRuns (r : Nat → Bool) (k : Nat) : List (Nat × Nat) :=
  (List.range k).filterMap (fun b =>
    if !r b && decide (runStart r b < b) then some (runStart r b, b) else none)

/-- The log-pitch values of frames `a, ..., b - 1`. -/
def runPitches (smoothedPitch : List (List (K × K))) (a b : Nat) : List K :=
  (List.range' a (b - a)).map (pitchAt smoothedPitch)

/-- The notes written for a list of closed runs: a run shorter than
`minNoteFrames` writes nothing, any other run writes its note feature. -/
def runNotes (M : Libm K) (s : PYinVamp K H) (smoothedPitch : List (List (K × K)))
    (runs : List (Nat × Nat)) : List (Feature K) :=
  runs.filterMap (fun ab =>
    if (minNoteFrames s).le (((ab.2 - ab.1 : Nat) : K)) then
      noteFeature M s (ab.1 : Int) ab.2 (runPitches smoothedPitch ab.1 ab.2)
    else none)

/-- The median of a non-empty buffer as `addNoteFeatures` takes it: the
element at index `n / 2` of the buffer sorted in ascending order. -/
def medianPitch (buf : List K) : Option K :=
  (buf.insertionSort (fun a b => a ≤ b))[buf.length / 2]?

/-- The candidate that the spec attaches to a lag: none for a lag of weight
zero, otherwise the pair of `sampleRate / parabolicInterpolation(yinBuffer,
lag)` and the weight. -/
def candidateAt (y : Yin K) (yinBuffer p : List K) (lag : Nat) : Option (K × K) :=
  match p[lag]? with
  | some x =>
    if x ≠ 0 then
      some ((y.m_inputSampleRate : K) / y.m_yinUtil.parabolicInterpolation yinBuffer lag, x)
    else none
  | none => none

/-! ## Concrete inputs used by the evaluations -/

/-- A `YinUtil` on a buffer of four lags whose `yinProb` gives weight 1/2 to
lag 1 and weight 1/4 to lag 3, and whose interpolation returns the lag. -/
def sampleUtil : YinUtil K :=
  { fastDifference := id, slowDifference := id, cumulativeDifference := id,
    yinProb := fun _ _ => [0, 1 / 2, 0, 1 / 4],
    parabolicInterpolation := fun _ lag => (lag : K),
    sumSquare := fun _ _ _ => 0 }

/-- A `Yin` object for frames of eight samples at 8000 Hz. -/
def sampleYin : Yin K :=
  { m_frameSize := 8, m_inputSampleRate := 8000, m_thresh := 0, m_threshDistr := 2,
    m_yinBufferSize := 4, m_fast := true, m_yinUtil := sampleUtil }

/-- A tracker with fixed lag 1 that decodes every frame as 440 Hz. -/
def lagOneTracker : MonoPitchHMM K Unit :=
  { construct := fun _ => (), m_fixedLag := fun _ => 1,
    calculateObsProb := fun _ _ => [], initialise := fun h _ => h, process := fun h _ => h,
    track := fun _ => [0], nearestFreq := fun _ _ _ => 440 }

/-- A plugin right after `reset`, at 8000 Hz with step 256 and block 2048,
fixed-lag mode on, unvoiced output reported (`outputunvoiced = 1`) and the
default thresholds, holding the given pitch track and levels. -/
def sampleVamp (pitchTrack level : List K) : PYinVamp K Unit :=
  { m_inputSampleRate := 8000, m_channels := 1, m_stepSize := 256, m_blockSize := 2048,
    m_yin := sampleYin, m_threshDistr := 2, m_fixedLag := 1, m_outputUnvoiced := 1,
    m_preciseTime := 0, m_lowAmp := 1 / 10, m_onsetSensitivity := 7 / 10,
    m_pruneThresh := 1 / 10, m_pitchHmm := (), m_pitchProb := [], m_timestamp := [],
    m_level := level, m_pitchTrack := pitchTrack }

/-! ## Vocabulary for `addNoteFeatures` as a whole -/

/-- The local `smoothedPitch` of `addNoteFeatures`. -/
def PYinVamp.smoothedPitch (M : Libm K) (s : PYinVamp K H) : List (List (K × K)) :=
  smoothedPitchOf M s.m_pitchTrack

/-- The note states `mnOut` of `addNoteFeatures`. -/
def PYinVamp.mnOut (M : Libm K) (N : MonoNote K) (s : PYinVamp K H) : List Int :=
  N.process (decide (1 / 2 < s.m_fixedLag)) (smoothedPitchOf M s.m_pitchTrack)

/-- The value of `isVoiced` at frame `i` of `addNoteFeatures`, false when its
evaluation reads out of range. -/
def PYinVamp.voiced (M : Libm K) (N : MonoNote K) (s : PYinVamp K H) (i : Nat) : Bool :=
  (isVoicedAt (s.mnOut M N) (s.smoothedPitch M) s.m_level s.m_onsetSensitivity
    s.m_pitchTrack.length i).getD false

/-- The voiced runs of `addNoteFeatures` with the frame that closes each. -/
def PYinVamp.noteRuns (M : Libm K) (N : MonoNote K) (s : PYinVamp K H) : List (Nat × Nat) :=
  closedRuns (inRun (s.voiced M N) s.m_pitchTrack.length) s.m_pitchTrack.length

/-- The inputs of `addNoteFeatures` for which no read is out of range: a note
state and a level for every frame of the pitch track, and a pitch track that
does not consist of a single frame. -/
def PYinVamp.NoteInputOk (M : Libm K) (N : MonoNote K) (s : PYinVamp K H) : Prop :=
  s.m_pitchTrack.length ≤ (s.mnOut M N).length ∧
  s.m_pitchTrack.length ≤ s.m_level.length ∧
  s.m_pitchTrack.length ≠ 1 ∧
  s.m_pitchTrack.length < 2 ^ 64

/-- A `MonoNote` that returns the given note states. -/
def sampleNote (states : List Int) : MonoNote K :=
  { process := fun _ _ => states }

/-- The local `factor` of `process`, by which the probability of every
candidate of a low-amplitude frame is multiplied. -/
def attenuationFactor (rms lowAmp : K) : K :=
  (rms + (1 / 100) * lowAmp) / ((101 / 100) * lowAmp)

/-! ## Theorems -/

/-! ### Configuration (`Yin::Yin`, `PYinVamp::initialise`) -/

/-- The constructor `Yin::Yin` never throws: every frame size is accepted. -/
theorem Yin_new_ok (mkUtil : Nat → YinUtil K) (frameSize rate : Nat) (thresh : K) (fast : Bool) :
    ∃ y, Yin.new mkUtil frameSize rate thresh fast = Except.ok y ∧ y.m_frameSize = frameSize := by
  unfold Yin.new
  split <;> exact ⟨_, rfl, rfl⟩

/-- With one channel `PYinVamp::initialise` accepts every step and block size
and resets the plugin. -/
theorem initialise_one_channel (P : MonoPitchHMM K H) (s : PYinVamp K H)
    (stepSize blockSize : Nat) :
    s.initialise P 1 stepSize blockSize =
      (true, PYinVamp.reset P
        { s with m_channels := 1, m_stepSize := stepSize, m_blockSize := blockSize }) := by
  unfold PYinVamp.initialise
  rw [if_neg (by simp [getMinChannelCount, getMaxChannelCount])]

/-- Claim C8, evaluated on the code: a frame size of 1000, which is not a
power of two, passes the power-of-two test of the `Yin` constructor with a
non-zero result, yet the constructor returns the object, and
`PYinVamp::initialise(1, 256, 1000)` returns `true` and installs the frame
size through `Yin::setFrameSize`, on the fast path when `precisetime` is 0. -/
theorem non_power_of_two_frame_size_accepted (mkUtil : Nat → YinUtil K)
    (P : MonoPitchHMM K H) (s : PYinVamp K H) :
    notPowerOfTwo 1000 = true ∧
    (∃ y, Yin.new mkUtil 1000 44100 (0 : K) true = Except.ok y ∧ y.m_frameSize = 1000) ∧
    (s.initialise P 1 256 1000).1 = true ∧
    (s.initialise P 1 256 1000).2.m_yin.m_frameSize = 1000 ∧
    (s.initialise P 1 256 1000).2.m_yin.m_fast = decide (s.m_preciseTime = 0) := by
  rw [initialise_one_channel]
  exact ⟨by decide, Yin_new_ok mkUtil 1000 44100 0 true, rfl, rfl, rfl⟩

/-! ### Output policy of the smoothed pitch track -/

/-- Claim C6 fails at a decoded frequency of zero: with `outputunvoiced = 0`
a feature is pushed whose value is 0, which is not a positive frequency. -/
theorem pitchOutput_zero_emitted :
    processPitchOutput (0 : ℚ) 0 = some [0] ∧ remainingPitchOutput (0 : ℚ) 0 = some [0] ∧
      ¬ ((0 : ℚ) < 0) := by
  refine ⟨by decide, by decide, by decide⟩

/-- Claim C6 as amended: `process` and `getRemainingFeatures` apply the same
output policy to the same frequency; with `outputunvoiced = 0` a negative
frequency pushes no feature and any other frequency (zero included) is
pushed unchanged, so every pushed value is non-negative; with value 1 the
magnitude is pushed for every frame; with value 2 the signed value is pushed
for every frame. -/
theorem smoothedPitch_output_policy (m f : K) :
    processPitchOutput m f = remainingPitchOutput m f ∧
    processPitchOutput 0 f = (if f < 0 then none else some [f]) ∧
    (∀ v, v ∈ (processPitchOutput 0 f).getD [] → 0 ≤ v) ∧
    processPitchOutput 1 f = some [|f|] ∧
    processPitchOutput 2 f = some [f] := by
  refine ⟨rfl, ?_, ?_, ?_, ?_⟩
  · simp [processPitchOutput]
  · intro v hv
    by_cases hf : f < 0
    · simp [processPitchOutput, hf] at hv
    · simp [processPitchOutput, hf] at hv
      rw [hv]; exact not_lt.mp hf
  · simp [processPitchOutput]
  · simp [processPitchOutput]

/-! ### `Yin::processProbabilisticYin` -/

/-- The `probSum` loop stays within `peakProbability` when the vector is long enough. -/
theorem probSum_loop (p : List K) (k : Nat) (hk : k ≤ p.length) (init : K) :
    ∃ r, (List.range k).foldlM (probSumStep p) init = some r := by
  induction k with
  | zero => exact ⟨init, rfl⟩
  | succ k ih =>
    obtain ⟨r, hr⟩ := ih (by omega)
    have hlt : k < p.length := by omega
    rw [List.range_succ, List.foldlM_append, hr]
    simp [probSumStep, List.getElem?_eq_getElem hlt]

/-- The state of the candidate loop of `processProbabilisticYin` after `k` lags. -/
theorem candidate_loop (y : Yin K) (yb p : List K) (yo : YinOutput K) (k : Nat)
    (hk : k ≤ p.length) (hnn : ∀ x ∈ p, 0 ≤ x) :
    (List.range k).foldlM (yinCandidateStep y yb p) yo =
      some { f0 := yo.f0, periodicity := yo.periodicity, rms := yo.rms,
             salience := yo.salience ++ p.take k
             freqProb := yo.freqProb ++ (List.range k).filterMap (candidateAt y yb p) } := by
  induction k with
  | zero => simp
  | succ k ih =>
    have hlt : k < p.length := by omega
    rw [List.range_succ, List.foldlM_append, ih (by omega)]
    have h0 : 0 ≤ p[k] := hnn _ (List.getElem_mem hlt)
    have htake : p.take (k + 1) = p.take k ++ [p[k]] := by
      rw [List.take_succ, List.getElem?_eq_getElem hlt]; rfl
    rw [htake, List.filterMap_append]
    by_cases hp : 0 < p[k]
    · have hne : p[k] ≠ 0 := ne_of_gt hp
      have hc : candidateAt y yb p k =
          some ((y.m_inputSampleRate : K) * (1 / y.m_yinUtil.parabolicInterpolation yb k), p[k]) := by
        simp only [candidateAt, List.getElem?_eq_getElem hlt]
        rw [if_pos hne, mul_one_div]
      simp only [Option.some_bind, Option.bind_eq_bind, List.foldlM_cons, List.foldlM_nil,
        yinCandidateStep, List.getElem?_eq_getElem hlt, if_pos hp, List.filterMap_cons, hc,
        List.filterMap_nil, List.append_assoc]
      rfl
    · have he : p[k] = 0 := le_antisymm (not_lt.mp hp) h0
      have hc : candidateAt y yb p k = none := by
        simp only [candidateAt, List.getElem?_eq_getElem hlt]
        rw [if_neg (by simp [he])]
      simp only [Option.some_bind, Option.bind_eq_bind, List.foldlM_cons, List.foldlM_nil,
        yinCandidateStep, List.getElem?_eq_getElem hlt, if_neg hp, List.filterMap_cons, hc,
        List.filterMap_nil, List.append_assoc, List.append_nil]
      rfl

/-- The accumulated `voicedProb` is the sum of the candidate probabilities. -/
theorem voicedProb_eq_sum (fp : List (K × K)) : voicedProb fp = (fp.map Prod.snd).sum := by
  unfold voicedProb
  have h : ∀ (l : List (K × K)) (a : K),
      l.foldl (fun acc c => acc + c.2) a = a + (l.map Prod.snd).sum := by
    intro l
    induction l with
    | nil => intro a; simp
    | cons c l ih => intro a; simp [ih, add_assoc]
  simpa using h fp 0

/-- The probabilities of the candidates are the non-zero weights, in lag order. -/
theorem candidateAt_probs (y : Yin K) (yb p : List K) (k : Nat) (hk : k ≤ p.length) :
    ((List.range k).filterMap (candidateAt y yb p)).map Prod.snd =
      (p.take k).filter (fun x => decide (x ≠ 0)) := by
  induction k with
  | zero => simp
  | succ k ih =>
    have hlt : k < p.length := by omega
    have htake : p.take (k + 1) = p.take k ++ [p[k]] := by
      rw [List.take_succ, List.getElem?_eq_getElem hlt]; rfl
    rw [List.range_succ, List.filterMap_append, List.map_append, ih (by omega), htake,
      List.filter_append]
    by_cases he : p[k] = 0
    · simp [candidateAt, List.getElem?_eq_getElem hlt, he]
    · simp [candidateAt, List.getElem?_eq_getElem hlt, he]

/-- Claim C9: for a probability vector of `yinBufferSize` non-negative
weights returned by `yinProb`, `processProbabilisticYin` returns a salience
curve equal to the vector, one candidate per lag of non-zero weight in
increasing lag order, with frequency `sampleRate /
parabolicInterpolation(yinBuffer, lag)` and the weight as probability; an
all-zero vector gives no candidate and an all-zero salience; the voiced
probability of `process` is the sum of the candidate probabilities. -/
theorem processProbabilisticYin_output (M : Libm K) (y : Yin K) (input : List K)
    (hlen : (y.peakProbability input).length = y.m_yinBufferSize)
    (hnn : ∀ x ∈ y.peakProbability input, 0 ≤ x) :
    ∃ yo, y.processProbabilisticYin M input = some yo ∧
      yo.salience = y.peakProbability input ∧
      yo.freqProb = (List.range y.m_yinBufferSize).filterMap
        (candidateAt y (y.yinBuffer input) (y.peakProbability input)) ∧
      yo.freqProb.map Prod.snd = (y.peakProbability input).filter (fun x => decide (x ≠ 0)) ∧
      ((∀ x ∈ y.peakProbability input, x = 0) → yo.freqProb = [] ∧ ∀ x ∈ yo.salience, x = 0) ∧
      voicedProb yo.freqProb = (yo.freqProb.map Prod.snd).sum := by
  obtain ⟨r, hr⟩ := probSum_loop (y.peakProbability input) y.m_yinBufferSize (le_of_eq hlen.symm) 0
  have hc := candidate_loop y (y.yinBuffer input) (y.peakProbability input)
    { f0 := 0, periodicity := 0,
      rms := M.sqrt (y.m_yinUtil.sumSquare input 0 y.m_yinBufferSize / (y.m_yinBufferSize : K)),
      salience := [], freqProb := [] } y.m_yinBufferSize (le_of_eq hlen.symm) hnn
  have hp := candidateAt_probs y (y.yinBuffer input) (y.peakProbability input) y.m_yinBufferSize
    (le_of_eq hlen.symm)
  have htk : (y.peakProbability input).take y.m_yinBufferSize = y.peakProbability input := by
    rw [← hlen]; exact List.take_length _
  rw [htk] at hp
  simp only [List.nil_append, htk] at hc
  have hrun : y.processProbabilisticYin M input = some
      { f0 := 0, periodicity := 0,
        rms := M.sqrt (y.m_yinUtil.sumSquare input 0 y.m_yinBufferSize / (y.m_yinBufferSize : K)),
        salience := y.peakProbability input,
        freqProb := (List.range y.m_yinBufferSize).filterMap
          (candidateAt y (y.yinBuffer input) (y.peakProbability input)) } := by
    unfold Yin.processProbabilisticYin
    simp only [hr]
    exact hc
  refine ⟨_, hrun, rfl, rfl, hp, ?_, voicedProb_eq_sum _⟩
  intro hz
  have hfil : (y.peakProbability input).filter (fun x => decide (x ≠ 0)) = [] := by
    rw [List.filter_eq_nil_iff]
    intro x hx
    simp [hz x hx]
  constructor
  · rw [hfil] at hp
    simpa using hp
  · intro x hx
    exact hz x hx

/-- Claim C9 applied to a buffer of four lags with weights 0, 1/2, 0 and 1/4. -/
theorem processProbabilisticYin_output_witness :
    ∃ yo, (sampleYin (K := ℝ)).processProbabilisticYin
        (Libm.mk Real.log (fun a b => a ^ b) Real.sqrt) [] = some yo ∧
      yo.salience = [0, 1 / 2, 0, 1 / 4] ∧ yo.freqProb.map Prod.snd = [1 / 2, 1 / 4] := by
  obtain ⟨yo, h1, h2, -, h4, -⟩ := processProbabilisticYin_output
    (Libm.mk Real.log (fun a b => a ^ b) Real.sqrt) (sampleYin (K := ℝ)) []
    (by simp [Yin.peakProbability, sampleYin, sampleUtil])
    (by simp [Yin.peakProbability, sampleYin, sampleUtil])
  refine ⟨yo, h1, by simpa [Yin.peakProbability, sampleYin, sampleUtil] using h2, ?_⟩
  rw [h4]
  simp [Yin.peakProbability, sampleYin, sampleUtil]

/-! ### Amplitude gate of `process` -/

/-- The `int` accumulator of `process` stays at zero on every frame whose
samples are all smaller than 1 in magnitude. -/
theorem accumulate_small_samples (samples : List K) (h : ∀ x ∈ samples, |x| < 1) :
    samples.foldl accumulateStep 0 = 0 := by
  induction samples with
  | nil => rfl
  | cons x xs ih =>
    have hx : |x| < 1 := h x (List.mem_cons_self _ _)
    have h0 : 0 ≤ x * x := mul_self_nonneg x
    have h1 : x * x < 1 := by
      have := abs_mul_abs_self x
      have h2 : |x| * |x| < 1 := by nlinarith [abs_nonneg x]
      linarith
    have hstep : accumulateStep 0 x = 0 := by
      unfold accumulateStep truncToInt
      simp only [Int.cast_zero, zero_add, if_pos h0]
      rw [Int.floor_eq_iff]
      constructor
      · simpa using h0
      · simpa using h1
    rw [List.foldl_cons, hstep]
    exact ih (fun y hy => h y (List.mem_cons_of_mem _ hy))

/-- Claim C5, evaluated on the code: a frame of two samples of value 1/2 has
root mean square 1/2, above the threshold 1/10, but the `rms` of `process`
is 0, the frame counts as low-amplitude, and the candidate of probability
9/10 reaches the tracker with probability 9/1010. -/
theorem amplitude_gate_attenuates_loud_frame :
    Real.sqrt (((1 / 2 : ℝ) * (1 / 2) + (1 / 2) * (1 / 2)) / 2) = 1 / 2 ∧
    (1 / 10 : ℝ) ≤ 1 / 2 ∧
    frameRms (Libm.mk Real.log (fun a b => a ^ b) Real.sqrt) 2 [(1 / 2 : ℝ), 1 / 2] = 0 ∧
    tempPitchProb (Libm.mk Real.log (fun a b => a ^ b) Real.sqrt) (1 / 10)
        (frameRms (Libm.mk Real.log (fun a b => a ^ b) Real.sqrt) 2 [(1 / 2 : ℝ), 1 / 2])
        (isLowAmplitude 2
          (frameRms (Libm.mk Real.log (fun a b => a ^ b) Real.sqrt) 2 [(1 / 2 : ℝ), 1 / 2])
          (1 / 10))
        [(440, 9 / 10)] = [(69, 9 / 1010)] := by
  have hacc : ([(1 / 2 : ℝ), 1 / 2].take 2).foldl accumulateStep 0 = 0 := by
    apply accumulate_small_samples
    intro x hx
    simp at hx
    rw [hx, abs_of_pos (by norm_num)]
    norm_num
  have hrms : frameRms (Libm.mk Real.log (fun a b => a ^ b) Real.sqrt) 2 [(1 / 2 : ℝ), 1 / 2] = 0 := by
    unfold frameRms
    rw [hacc]
    simp
  refine ⟨?_, by norm_num, hrms, ?_⟩
  · rw [show ((1 / 2 : ℝ) * (1 / 2) + (1 / 2) * (1 / 2)) / 2 = (1 / 2) ^ 2 by norm_num]
    exact Real.sqrt_sq (by norm_num)
  · rw [hrms]
    norm_num [tempPitchProb, isLowAmplitude]

/-! ### Onset check of `addNoteFeatures` -/

/-- Claim C4 fails: with levels 1 and 1 the quotient 1 exceeds the onset
sensitivity 7/10, and the frame, in note state 1 with a pitch, is voiced. -/
theorem isVoiced_when_level_quotient_exceeds :
    isVoicedAt [1, 1, 1] [[((69 : ℚ), 9 / 10)], [(69, 9 / 10)], [(69, 9 / 10)]] [1, 1, 1]
        (7 / 10) 3 0 = some true ∧ (7 / 10 : ℚ) < 1 / 1 := by
  norm_num [isVoicedAt, fdiv, FDiv.gt]

/-- Claim C4 as amended: at a frame `i` with `i + 2 < nFrame`, `isVoiced` is
the conjunction of three tests: the note state is below 3, the frame has a
log-pitch observation, and `level(i) / level(i+2)` exceeds the onset
sensitivity.  So when the quotient exceeds the sensitivity `isVoiced` is
(note state below 3 and pitch present), and when it does not, `isVoiced` is
false whatever the note state and the pitch. -/
theorem isVoicedAt_onset_check (mnOut : List Int) (smoothedPitch : List (List (K × K)))
    (level : List K) (sens : K) (nFrame i : Nat) (noteState : Int) (sp : List (K × K))
    (a b : K) (hi : i + 2 < nFrame) (hn : nFrame < 2 ^ 64)
    (hns : mnOut[i]? = some noteState) (hsp : smoothedPitch[i]? = some sp)
    (ha : level[i]? = some a) (hb : level[i + 2]? = some b) :
    isVoicedAt mnOut smoothedPitch level sens nFrame i =
        some (decide (noteState < 3 ∧ 0 < sp.length) && (fdiv a b).gt sens) ∧
      (b ≠ 0 → (fdiv a b).gt sens = decide (sens < a / b)) := by
  have hw : ¬ ((nFrame + 2 ^ 64 - 2) % 2 ^ 64 ≤ i) := by
    have : (nFrame + 2 ^ 64 - 2) % 2 ^ 64 = nFrame - 2 := by omega
    omega
  constructor
  · unfold isVoicedAt
    simp only [hns, hsp, ha, hb, if_neg hw]
    by_cases h1 : noteState < 3 <;> by_cases h2 : 0 < sp.length <;> simp [h1, h2]
  · intro hb0
    simp [fdiv, hb0, FDiv.gt]

/-- Claim C4 as amended, applied to three frames with levels 1, 1 and 2: the
quotient 1/2 does not exceed 7/10 and frame 0 is not voiced. -/
theorem isVoicedAt_onset_check_witness :
    isVoicedAt [1, 1, 1] [[((69 : ℚ), 9 / 10)], [(69, 9 / 10)], [(69, 9 / 10)]] [1, 1, 2]
        (7 / 10) 3 0 = some false := by
  have h := (isVoicedAt_onset_check [1, 1, 1]
    [[((69 : ℚ), 9 / 10)], [(69, 9 / 10)], [(69, 9 / 10)]] [1, 1, 2] (7 / 10) 3 0
    1 [(69, 9 / 10)] 1 2 (by norm_num) (by norm_num) rfl rfl rfl rfl).1
  rw [h]
  norm_num [fdiv, FDiv.gt]

/-! ### The note loop of `addNoteFeatures` -/

/-- A run start never lies beyond the frame it is computed for. -/
theorem runStart_le (r : Nat → Bool) (k : Nat) : runStart r k ≤ k := by
  induction k with
  | zero => simp [runStart]
  | succ k ih =>
    unfold runStart
    split
    · omega
    · omega

/-- The block ending before frame `k + 1` is non-empty exactly when frame
`k` satisfies `r`. -/
theorem runStart_lt_succ_iff (r : Nat → Bool) (k : Nat) :
    runStart r (k + 1) < k + 1 ↔ r k = true := by
  have := runStart_le r k
  unfold runStart
  split
  · rename_i h; simp [h]; omega
  · rename_i h; simp [h]

/-- All frames from the run start up to frame `k` satisfy `r`. -/
theorem runStart_all (r : Nat → Bool) (k i : Nat) (h1 : runStart r k ≤ i) (h2 : i < k) :
    r i = true := by
  induction k with
  | zero => omega
  | succ k ih =>
    unfold runStart at h1
    split at h1
    · rename_i h
      by_cases hik : i = k
      · rw [hik]; exact h
      · exact ih h1 (by omega)
    · omega

/-- The block cannot be extended to the left. -/
theorem runStart_left (r : Nat → Bool) (k : Nat) :
    runStart r k = 0 ∨ r (runStart r k - 1) = false := by
  induction k with
  | zero => left; rfl
  | succ k ih =>
    unfold runStart
    split
    · exact ih
    · rename_i h
      right
      simpa using h

/-- A start `a` that satisfies the two properties of a run start is the run
start. -/
theorem runStart_unique (r : Nat → Bool) (k a : Nat) (hak : a ≤ k)
    (hall : ∀ i, a ≤ i → i < k → r i = true) (hleft : a = 0 ∨ r (a - 1) = false) :
    runStart r k = a := by
  have h1 := runStart_le r k
  have h2 := runStart_all r k
  have h3 := runStart_left r k
  rcases Nat.lt_trichotomy (runStart r k) a with h | h | h
  · exfalso
    rcases hleft with h0 | h0
    · omega
    · have := h2 (a - 1) (by omega) (by omega)
      rw [this] at h0
      exact Bool.noConfusion h0
  · exact h
  · exfalso
    rcases h3 with h0 | h0
    · omega
    · have := hall (runStart r k - 1) (by omega) (by omega)
      rw [this] at h0
      exact Bool.noConfusion h0

/-- The closed runs before frame `k + 1`. -/
theorem closedRuns_succ (r : Nat → Bool) (k : Nat) :
    closedRuns r (k + 1) = closedRuns r k ++
      (if r k = false ∧ runStart r k < k then [(runStart r k, k)] else []) := by
  unfold closedRuns
  rw [List.range_succ, List.filterMap_append]
  congr 1
  by_cases h : r k = false ∧ runStart r k < k
  · simp [h.1, h.2]
  · rw [if_neg h]
    rw [not_and_or] at h
    rcases h with h | h
    · simp [h]
    · simp [h]

/-- Membership in the closed runs, spelled out. -/
theorem mem_closedRuns (r : Nat → Bool) (k a b : Nat) :
    (a, b) ∈ closedRuns r k ↔
      b < k ∧ a < b ∧ (∀ i, a ≤ i → i < b → r i = true) ∧ r b = false ∧
        (a = 0 ∨ r (a - 1) = false) := by
  unfold closedRuns
  rw [List.mem_filterMap]
  constructor
  · rintro ⟨c, hc, h⟩
    rw [List.mem_range] at hc
    by_cases hcond : r c = false ∧ runStart r c < c
    · simp [hcond.1, hcond.2] at h
      obtain ⟨h1, h2⟩ := h
      subst h2
      subst h1
      exact ⟨hc, hcond.2, fun i hi1 hi2 => runStart_all r c i hi1 hi2, hcond.1, runStart_left r c⟩
    · exfalso
      rw [not_and_or] at hcond
      rcases hcond with h' | h'
      · simp [h'] at h
      · simp [h'] at h
  · rintro ⟨hb, hab, hall, hrb, hleft⟩
    refine ⟨b, List.mem_range.mpr hb, ?_⟩
    have hs : runStart r b = a := runStart_unique r b a (by omega) hall hleft
    simp [hrb, hs, hab]

/-- The pitches of a run extended by one frame. -/
theorem runPitches_succ (sp : List (List (K × K))) (a k : Nat) (h : a ≤ k) :
    runPitches sp a (k + 1) = runPitches sp a k ++ [pitchAt sp k] := by
  unfold runPitches
  have : k + 1 - a = (k - a) + 1 := by omega
  have e : a + 1 * (k - a) = k := by omega
  rw [this, List.range'_concat, List.map_append, e]
  rfl

/-- A run holds one pitch per frame. -/
theorem runPitches_length (sp : List (List (K × K))) (a b : Nat) :
    (runPitches sp a b).length = b - a := by
  simp [runPitches]

/-- One more iteration of the note loop. -/
theorem noteLoop_succ (M : Libm K) (s : PYinVamp K H) (mnOut : List Int)
    (sp : List (List (K × K))) (n k : Nat) :
    noteLoop M s mnOut sp n (k + 1) =
      (noteLoop M s mnOut sp n k).bind (fun st => noteFrame M s mnOut sp n st k) := by
  unfold noteLoop
  rw [List.range_succ, List.foldlM_append]
  simp

/-- A voiced frame has a log-pitch observation. -/
theorem isVoicedAt_true_pitch (mnOut : List Int) (sp : List (List (K × K))) (level : List K)
    (sens : K) (n i : Nat) (h : isVoicedAt mnOut sp level sens n i = some true) :
    ∃ pp rest, sp[i]? = some (pp :: rest) := by
  unfold isVoicedAt at h
  split at h
  · exact Option.noConfusion h
  · split at h
    · split at h
      · exact Option.noConfusion h
      · rename_i l hl
        split at h
        · rename_i hpos
          cases l with
          | nil => simp at hpos
          | cons pp rest => exact ⟨pp, rest, hl⟩
        · simp at h
    · simp at h

/-- The note written for a non-empty buffer. -/
theorem noteFeature_eq (M : Libm K) (s : PYinVamp K H) (a : Int) (b : Nat) (buf : List K)
    (h : buf ≠ []) :
    ∃ m, medianPitch buf = some m ∧ m ∈ buf ∧
      noteFeature M s a b buf =
        some { timestamp := a * (s.m_stepSize : Int) + s.offset,
               duration := ((b : Int) - a) * (s.m_stepSize : Int),
               values := [pitchFreq M m] } := by
  have hlen : buf.length / 2 < (buf.insertionSort (fun a b => a ≤ b)).length := by
    rw [List.length_insertionSort]
    have : 0 < buf.length := List.length_pos.mpr h
    omega
  refine ⟨(buf.insertionSort (fun a b => a ≤ b))[buf.length / 2], ?_, ?_, ?_⟩
  · unfold medianPitch
    exact List.getElem?_eq_getElem hlen
  · have hm := List.getElem_mem hlen
    exact (List.perm_insertionSort (fun a b => a ≤ b) buf).mem_iff.mp hm
  · unfold noteFeature
    simp only [List.getElem?_eq_getElem hlen, frame2RealTime, pitchFreq]
    congr 1
    ring_nf

/-- The notes of a list of runs followed by one more run. -/
theorem runNotes_append (M : Libm K) (s : PYinVamp K H) (sp : List (List (K × K)))
    (l1 l2 : List (Nat × Nat)) :
    runNotes M s sp (l1 ++ l2) = runNotes M s sp l1 ++ runNotes M s sp l2 := by
  unfold runNotes
  rw [List.filterMap_append]

/-- The state of the note loop after `k` frames: the notes written so far
are those of the runs closed before frame `k`, and the buffer holds the
pitches of the run that is open at frame `k`. -/
theorem noteLoop_state (M : Libm K) (s : PYinVamp K H) (mnOut : List Int)
    (sp : List (List (K × K))) (n : Nat) (v : Nat → Bool)
    (hv : ∀ i, i < n →
      isVoicedAt mnOut sp s.m_level s.m_onsetSensitivity n i = some (v i))
    (k : Nat) (hk : k ≤ n) :
    ∃ st, noteLoop M s mnOut sp n k = some st ∧
      st.notes = runNotes M s sp (closedRuns (inRun v n) k) ∧
      st.oldIsVoiced = (decide (0 < k) && v (k - 1)) ∧
      (runStart (inRun v n) k < k → st.onsetFrame = (runStart (inRun v n) k : Int)) ∧
      st.notePitchTrack = runPitches sp (runStart (inRun v n) k) k := by
  induction k with
  | zero =>
    refine ⟨_, rfl, ?_, ?_, ?_, ?_⟩
    · simp [closedRuns, runNotes]
    · simp
    · intro h; omega
    · simp [runStart, runPitches]
  | succ k ih =>
    obtain ⟨st, hst, hnotes, hold, honset, hbuf⟩ := ih (by omega)
    have hkn : k < n := by omega
    rw [noteLoop_succ, hst, Option.some_bind]
    have hle := runStart_le (inRun v n) k
    -- the flag of the previous frame decides whether a run is open
    have hopen : st.oldIsVoiced = true ↔ runStart (inRun v n) k < k := by
      rw [hold]
      cases k with
      | zero => simp
      | succ j =>
        rw [runStart_lt_succ_iff]
        have hj : j ≠ n - 1 := by omega
        simp [inRun, hj]
    unfold noteFrame
    rw [hv k hkn]
    by_cases hrun : v k = true ∧ k ≠ n - 1
    · -- the frame joins or starts a run
      have hr : inRun v n k = true := by simp [inRun, hrun.1, hrun.2]
      obtain ⟨pp, rest, hsp⟩ := isVoicedAt_true_pitch mnOut sp s.m_level
        s.m_onsetSensitivity n k (by rw [hv k hkn, hrun.1])
      have hpa : pitchAt sp k = pp.1 := by simp [pitchAt, hsp]
      have hrs : runStart (inRun v n) (k + 1) = runStart (inRun v n) k := by
        conv_lhs => unfold runStart
        rw [if_pos hr]
      simp only [if_pos hrun, hsp, List.getElem?_cons_zero]
      refine ⟨_, rfl, ?_, ?_, ?_, ?_⟩
      · have hn : ¬ (inRun v n k = false ∧ runStart (inRun v n) k < k) := by simp [hr]
        rw [closedRuns_succ, if_neg hn, List.append_nil]
        exact hnotes
      · simp [hrun.1]
      · intro _
        rw [hrs]
        by_cases ho : st.oldIsVoiced = true
        · simp only [ho]
          simpa using honset (hopen.mp ho)
        · have hof : st.oldIsVoiced = false := by simpa using ho
          have : ¬ runStart (inRun v n) k < k := fun h => ho (hopen.mpr h)
          have hk' : runStart (inRun v n) k = k := by omega
          simp [hof, hk']
      · rw [hrs, runPitches_succ sp _ k hle, hbuf, hpa]
    · -- the frame is outside every run
      have hr : inRun v n k = false := by
        rw [not_and_or] at hrun
        rcases hrun with h | h
        · simp [inRun, h]
        · simp only [inRun]
          have : k = n - 1 := by simpa using h
          simp [this]
      have hrs : runStart (inRun v n) (k + 1) = k + 1 := by
        conv_lhs => unfold runStart
        have hn : ¬ (inRun v n k = true) := by simp [hr]
        rw [if_neg hn]
      have hempty : runPitches sp (k + 1) (k + 1) = ([] : List K) := by simp [runPitches]
      simp only [if_neg hrun]
      by_cases ho : st.oldIsVoiced = true
      · have hlt := hopen.mp ho
        have hon := honset hlt
        have hcr : closedRuns (inRun v n) (k + 1) =
            closedRuns (inRun v n) k ++ [(runStart (inRun v n) k, k)] := by
          rw [closedRuns_succ, if_pos ⟨hr, hlt⟩]
        have hblen : st.notePitchTrack.length = k - runStart (inRun v n) k := by
          rw [hbuf, runPitches_length]
        have hne : st.notePitchTrack ≠ [] := by
          intro h0
          rw [h0] at hblen
          simp at hblen
          omega
        simp only [if_pos ho]
        by_cases hlong : (minNoteFrames s).le (st.notePitchTrack.length : K) = true
        · obtain ⟨m, -, -, hnf⟩ := noteFeature_eq M s st.onsetFrame k st.notePitchTrack hne
          simp only [if_pos hlong, hnf]
          refine ⟨_, rfl, ?_, ?_, ?_, ?_⟩
          · rw [hcr, runNotes_append, ← hnotes]
            have hlong2 : (minNoteFrames s).le (((k - runStart (inRun v n) k : Nat) : K)) = true := by
              rw [← hblen]; exact hlong
            simp only [runNotes, List.filterMap_cons, List.filterMap_nil, if_pos hlong2]
            rw [← hbuf, ← hon, hnf]
          · simp
          · intro h; rw [hrs] at h; omega
          · rw [hrs, hempty]
        · simp only [if_neg hlong]
          refine ⟨_, rfl, ?_, ?_, ?_, ?_⟩
          · rw [hcr, runNotes_append, ← hnotes]
            have hlong2 : ¬ (minNoteFrames s).le (((k - runStart (inRun v n) k : Nat) : K)) = true := by
              rw [← hblen]; exact hlong
            simp [runNotes, hlong2]
          · simp
          · intro h; rw [hrs] at h; omega
          · rw [hrs, hempty]
      · have hnlt : ¬ runStart (inRun v n) k < k := fun h => ho (hopen.mpr h)
        have hk' : runStart (inRun v n) k = k := by omega
        simp only [if_neg ho]
        refine ⟨_, rfl, ?_, ?_, ?_, ?_⟩
        · rw [closedRuns_succ, if_neg (fun h => hnlt h.2), List.append_nil]
          exact hnotes
        · simp
        · intro h; rw [hrs] at h; omega
        · rw [hrs, hempty]
          show st.notePitchTrack = []
          rw [hbuf, hk']
          simp [runPitches]

/-- The smoothed pitch has one entry per frame of the pitch track. -/
theorem smoothedPitch_length (M : Libm K) (s : PYinVamp K H) :
    (s.smoothedPitch M).length = s.m_pitchTrack.length := by
  simp [PYinVamp.smoothedPitch, smoothedPitchOf]

/-- The evaluation of `isVoiced` stays in range at every frame when note
states and levels cover the pitch track and the track is not a single frame. -/
theorem isVoicedAt_defined (mnOut : List Int) (sp : List (List (K × K))) (level : List K)
    (sens : K) (n i : Nat) (hmn : n ≤ mnOut.length) (hsp : sp.length = n)
    (hlev : n ≤ level.length) (hn1 : n ≠ 1) (hn : n < 2 ^ 64) (hi : i < n) :
    ∃ b, isVoicedAt mnOut sp level sens n i = some b := by
  have h1 : i < mnOut.length := by omega
  have h2 : i < sp.length := by omega
  unfold isVoicedAt
  rw [List.getElem?_eq_getElem h1, List.getElem?_eq_getElem h2]
  simp only
  split
  · split
    · split
      · exact ⟨_, rfl⟩
      · rename_i hw
        have hw2 : (n + 2 ^ 64 - 2) % 2 ^ 64 = n - 2 := by omega
        have h3 : i < level.length := by omega
        have h4 : i + 2 < level.length := by omega
        rw [List.getElem?_eq_getElem h3, List.getElem?_eq_getElem h4]
        exact ⟨_, rfl⟩
    · exact ⟨_, rfl⟩
  · exact ⟨_, rfl⟩

/-- On well-formed input `isVoiced` is defined at every frame. -/
theorem voiced_spec (M : Libm K) (N : MonoNote K) (s : PYinVamp K H)
    (hok : s.NoteInputOk M N) (i : Nat) (hi : i < s.m_pitchTrack.length) :
    isVoicedAt (s.mnOut M N) (s.smoothedPitch M) s.m_level s.m_onsetSensitivity
      s.m_pitchTrack.length i = some (s.voiced M N i) := by
  obtain ⟨b, hb⟩ := isVoicedAt_defined (s.mnOut M N) (s.smoothedPitch M) s.m_level
    s.m_onsetSensitivity s.m_pitchTrack.length i hok.1 (smoothedPitch_length M s) hok.2.1
    hok.2.2.1 hok.2.2.2 hi
  simp [PYinVamp.voiced, hb]

/-- The notes of `addNoteFeatures` on well-formed input: the notes of its
voiced runs, in the order in which the runs are closed. -/
theorem addNoteFeatures_eq (M : Libm K) (N : MonoNote K) (s : PYinVamp K H)
    (hok : s.NoteInputOk M N) :
    s.addNoteFeatures M N = some (runNotes M s (s.smoothedPitch M) (s.noteRuns M N)) := by
  obtain ⟨st, hst, hnotes, -⟩ := noteLoop_state M s (s.mnOut M N) (s.smoothedPitch M)
    s.m_pitchTrack.length (s.voiced M N) (voiced_spec M N s hok) s.m_pitchTrack.length
    (le_refl _)
  unfold PYinVamp.addNoteFeatures
  simp only [PYinVamp.mnOut, PYinVamp.smoothedPitch] at hst
  simp only [hst, Option.map_some', hnotes]
  rfl

/-- A run of `addNoteFeatures`, spelled out on the voiced flags: the frames
from `a` up to `b` are voiced, frame `b` is not voiced or is the last
frame, and frame `a - 1` is not voiced. -/
theorem mem_noteRuns (M : Libm K) (N : MonoNote K) (s : PYinVamp K H) (a b : Nat) :
    (a, b) ∈ s.noteRuns M N ↔
      b < s.m_pitchTrack.length ∧ a < b ∧ (∀ i, a ≤ i → i < b → s.voiced M N i = true) ∧
        (s.voiced M N b = false ∨ b = s.m_pitchTrack.length - 1) ∧
        (a = 0 ∨ s.voiced M N (a - 1) = false) := by
  unfold PYinVamp.noteRuns
  rw [mem_closedRuns]
  constructor
  · rintro ⟨hb, hab, hall, hrb, hleft⟩
    refine ⟨hb, hab, ?_, ?_, ?_⟩
    · intro i h1 h2
      have := hall i h1 h2
      simp [inRun] at this
      exact this.1
    · simp only [inRun, Bool.and_eq_false_imp, decide_eq_false_iff_not, not_not] at hrb
      by_cases hvb : s.voiced M N b = true
      · right; exact hrb hvb
      · left; simpa using hvb
    · rcases hleft with h | h
      · left; exact h
      · right
        simp only [inRun, Bool.and_eq_false_imp, decide_eq_false_iff_not, not_not] at h
        by_cases hva : s.voiced M N (a - 1) = true
        · have := h hva
          omega
        · simpa using hva
  · rintro ⟨hb, hab, hall, hrb, hleft⟩
    refine ⟨hb, hab, ?_, ?_, ?_⟩
    · intro i h1 h2
      have hi : i ≠ s.m_pitchTrack.length - 1 := by omega
      simp [inRun, hall i h1 h2, hi]
    · rcases hrb with h | h
      · simp [inRun, h]
      · simp [inRun, h]
    · rcases hleft with h | h
      · left; exact h
      · right; simp [inRun, h]

/-- Every note among the notes of a list of non-empty runs is the note
feature of one of the runs, and that run reaches `minNoteFrames`. -/
theorem mem_runNotes (M : Libm K) (s : PYinVamp K H) (sp : List (List (K × K)))
    (runs : List (Nat × Nat)) (hruns : ∀ ab ∈ runs, ab.1 < ab.2) (f : Feature K)
    (hf : f ∈ runNotes M s sp runs) :
    ∃ a b m, (a, b) ∈ runs ∧ (minNoteFrames s).le (((b - a : Nat) : K)) = true ∧
      medianPitch (runPitches sp a b) = some m ∧ m ∈ runPitches sp a b ∧
      f = { timestamp := (a : Int) * (s.m_stepSize : Int) + s.offset,
            duration := ((b : Int) - (a : Int)) * (s.m_stepSize : Int),
            values := [pitchFreq M m] } := by
  unfold runNotes at hf
  rw [List.mem_filterMap] at hf
  obtain ⟨⟨a, b⟩, hab, h⟩ := hf
  have hlt : a < b := hruns (a, b) hab
  have hne : runPitches sp a b ≠ [] := by
    intro h0
    have := runPitches_length sp a b
    rw [h0] at this
    simp at this
    omega
  obtain ⟨m, hm, hmem, hnf⟩ := noteFeature_eq M s (a : Int) b (runPitches sp a b) hne
  by_cases hlong : (minNoteFrames s).le (((b - a : Nat) : K)) = true
  · simp only [if_pos hlong, hnf, Option.some.injEq] at h
    exact ⟨a, b, m, hab, hlong, hm, hmem, h.symm⟩
  · simp only [if_neg hlong] at h
    exact Option.noConfusion h

/-- With a positive step size the test against `minNoteFrames` compares with
the quotient `sampleRate * pruneThresh / stepSize`, which is not rounded. -/
theorem minNoteFrames_le (s : PYinVamp K H) (hstep : 0 < s.m_stepSize) (x : K) :
    (minNoteFrames s).le x =
      decide (s.m_inputSampleRate * s.m_pruneThresh / (s.m_stepSize : K) ≤ x) := by
  have h0 : (s.m_stepSize : K) ≠ 0 := by
    have : (0 : K) < (s.m_stepSize : K) := by exact_mod_cast hstep
    exact ne_of_gt this
  simp [minNoteFrames, fdiv, h0, FDiv.le]

/-- The run start depends on the flags of the earlier frames only. -/
theorem runStart_congr (r1 r2 : Nat → Bool) (k : Nat) (h : ∀ i, i < k → r1 i = r2 i) :
    runStart r1 k = runStart r2 k := by
  induction k with
  | zero => rfl
  | succ k ih =>
    unfold runStart
    rw [h k (by omega), ih (fun i hi => h i (by omega))]

/-- The closed runs before frame `k` depend on the flags before `k` only. -/
theorem closedRuns_congr (r1 r2 : Nat → Bool) (k : Nat) (h : ∀ i, i < k → r1 i = r2 i) :
    closedRuns r1 k = closedRuns r2 k := by
  induction k with
  | zero => rfl
  | succ k ih =>
    rw [closedRuns_succ, closedRuns_succ, ih (fun i hi => h i (by omega)), h k (by omega),
      runStart_congr r1 r2 k (fun i hi => h i (by omega))]

/-- The runs of `addNoteFeatures` computed from a list of voiced flags. -/
theorem noteRuns_of_flags (M : Libm K) (N : MonoNote K) (s : PYinVamp K H) (flags : List Bool)
    (h : ∀ i, i < s.m_pitchTrack.length →
      isVoicedAt (s.mnOut M N) (s.smoothedPitch M) s.m_level s.m_onsetSensitivity
        s.m_pitchTrack.length i = some (flags.getD i false)) :
    s.noteRuns M N =
      closedRuns (inRun (fun i => flags.getD i false) s.m_pitchTrack.length)
        s.m_pitchTrack.length := by
  unfold PYinVamp.noteRuns
  apply closedRuns_congr
  intro i hi
  simp [inRun, PYinVamp.voiced, h i hi]

/-- No run is closed while every frame satisfies `r`. -/
theorem closedRuns_all_true (r : Nat → Bool) (k : Nat) (h : ∀ i, i < k → r i = true) :
    closedRuns r k = [] := by
  induction k with
  | zero => rfl
  | succ k ih =>
    have hn : ¬ (r k = false ∧ runStart r k < k) := by simp [h k (by omega)]
    rw [closedRuns_succ, ih (fun i hi => h i (by omega)), if_neg hn]
    rfl

/-- The real functions `log` and `pow` satisfy the round trip used for
pitches: `2 ^ (log x / log 2) = x` for positive `x`. -/
theorem real_pow_log (x : ℝ) (hx : 0 < x) : (2 : ℝ) ^ (Real.log x / Real.log 2) = x := by
  rw [Real.log_div_log]
  exact Real.rpow_logb (by norm_num) (by norm_num) hx

/-- Converting a positive frequency to log-pitch and back returns the
frequency, for every `libm` whose `pow` and `log` satisfy the round trip. -/
theorem pitchFreq_logPitch (M : Libm K)
    (hM : ∀ x : K, 0 < x → M.pow 2 (M.log x / M.log 2) = x) (freq : K) (hf : 0 < freq) :
    pitchFreq M (logPitch M freq) = freq := by
  unfold pitchFreq logPitch
  have h1 : (12 * M.log (freq / 440) / M.log 2 + 69 - 69) / 12 = M.log (freq / 440) / M.log 2 := by
    ring
  rw [h1, hM (freq / 440) (by positivity)]
  field_simp

/-- The notes of a pitch track whose `n` frames are all voiced at one
frequency: the only run goes from frame 0 to the last frame `n - 1`. -/
theorem constant_track_notes (M : Libm K) (N : MonoNote K) (s : PYinVamp K H) (n : Nat)
    (freq : K) (htrack : s.m_pitchTrack = List.replicate n freq) (hf : 0 < freq)
    (hn2 : 2 ≤ n) (hn64 : n < 2 ^ 64)
    (hstate : ∀ i, i < n → ∃ st, (s.mnOut M N)[i]? = some st ∧ st < 3)
    (hlevel : ∀ i, i + 2 < n → ∃ a b, s.m_level[i]? = some a ∧ s.m_level[i + 2]? = some b ∧
      (fdiv a b).gt s.m_onsetSensitivity = true) :
    s.addNoteFeatures M N =
      some (if (minNoteFrames s).le (((n - 1 : Nat) : K)) then
        [{ timestamp := s.offset, duration := ((n - 1 : Nat) : Int) * (s.m_stepSize : Int),
           values := [pitchFreq M (logPitch M freq)] }]
      else []) := by
  have hlen : s.m_pitchTrack.length = n := by rw [htrack]; simp
  have hsp : ∀ i, i < n → (s.smoothedPitch M)[i]? = some [(logPitch M freq, 9 / 10)] := by
    intro i hi
    simp [PYinVamp.smoothedPitch, smoothedPitchOf, htrack, hi, hf, logPitch]
  have hv : ∀ i, i < n → isVoicedAt (s.mnOut M N) (s.smoothedPitch M) s.m_level
      s.m_onsetSensitivity n i = some ((fun _ => true) i) := by
    intro i hi
    obtain ⟨st, hst, hlt⟩ := hstate i hi
    unfold isVoicedAt
    simp only [hst, if_pos hlt, hsp i hi, List.length_singleton, Nat.lt_one_iff, if_true]
    have hw : (n + 2 ^ 64 - 2) % 2 ^ 64 = n - 2 := by omega
    rw [hw]
    by_cases hlast : n - 2 ≤ i
    · simp [hlast]
    · obtain ⟨a, b, ha, hb, hab⟩ := hlevel i (by omega)
      simp [hlast, ha, hb, hab]
  obtain ⟨st, hst, hnotes, -⟩ := noteLoop_state M s (s.mnOut M N) (s.smoothedPitch M) n
    (fun _ => true) hv n (le_refl _)
  have hruns : closedRuns (inRun (fun _ => true) n) n = [(0, n - 1)] := by
    obtain ⟨m, rfl⟩ : ∃ m, n = m + 1 := ⟨n - 1, by omega⟩
    have hall : ∀ i, i < m → inRun (fun _ => true) (m + 1) i = true := by
      intro i hi
      have : i ≠ m := by omega
      simp [inRun, this]
    have hrs : runStart (inRun (fun _ => true) (m + 1)) m = 0 :=
      runStart_unique _ m 0 (by omega) (fun i _ hi => hall i hi) (Or.inl rfl)
    have hc : inRun (fun _ => true) (m + 1) m = false ∧
        runStart (inRun (fun _ => true) (m + 1)) m < m := by
      constructor
      · simp [inRun]
      · rw [hrs]; omega
    rw [closedRuns_succ, closedRuns_all_true _ m hall, if_pos hc, hrs]
    rfl
  have hbuf : ∀ x ∈ runPitches (s.smoothedPitch M) 0 (n - 1), x = logPitch M freq := by
    intro x hx
    simp only [runPitches, List.mem_map, List.mem_range'_1] at hx
    obtain ⟨i, hi, rfl⟩ := hx
    simp [pitchAt, hsp i (by omega)]
  have hne : runPitches (s.smoothedPitch M) 0 (n - 1) ≠ [] := by
    intro h0
    have := runPitches_length (s.smoothedPitch M) 0 (n - 1)
    rw [h0] at this
    simp at this
    omega
  obtain ⟨m, -, hmem, hnf⟩ := noteFeature_eq M s ((0 : Nat) : Int) (n - 1)
    (runPitches (s.smoothedPitch M) 0 (n - 1)) hne
  have hm : m = logPitch M freq := hbuf m hmem
  unfold PYinVamp.addNoteFeatures
  rw [hlen]
  simp only [PYinVamp.mnOut, PYinVamp.smoothedPitch] at hst
  simp only [hst, Option.map_some', hnotes, hruns]
  congr 1
  simp only [runNotes, List.filterMap_cons, List.filterMap_nil, Nat.sub_zero]
  by_cases hlong : (minNoteFrames s).le (((n - 1 : Nat) : K)) = true
  · simp only [if_pos hlong, hnf, hm]
    simp
  · simp only [if_neg hlong]

/-! ### Claims on the notes of `addNoteFeatures` -/

/-- Claim C3 fails: four frames voiced at 440 Hz, at 8000 Hz with step 256,
last 0.128 s, more than the prune threshold 0.1 s, yet no note is written. -/
theorem constant_track_above_threshold_no_note :
    (1 / 10 : ℝ) < 4 * 256 / 8000 ∧
    (sampleVamp [(440 : ℝ), 440, 440, 440] [1, 1, 1, 1]).addNoteFeatures
        (Libm.mk Real.log (fun a b => a ^ b) Real.sqrt) (sampleNote [1, 1, 1, 1]) = some [] := by
  refine ⟨by norm_num, ?_⟩
  rw [constant_track_notes _ _ _ 4 440 rfl (by norm_num) (by norm_num) (by norm_num)]
  · have hstep : 0 < (sampleVamp [(440 : ℝ), 440, 440, 440] [1, 1, 1, 1]).m_stepSize := by
      simp [sampleVamp]
    rw [minNoteFrames_le _ hstep]
    norm_num [sampleVamp]
  · intro i hi
    interval_cases i <;> simp [PYinVamp.mnOut, sampleNote]
  · intro i hi
    have hi2 : i < 2 := by omega
    interval_cases i <;> norm_num [sampleVamp, fdiv, FDiv.gt]

/-- Claim C3 as amended: a track of `n >= 2` frames, all voiced at one
frequency, writes exactly one note, at that frequency, from frame 0 to
frame `n - 1`, when `n - 1 >= sampleRate * pruneThresh / stepSize`, that is
when `(n - 1) * stepSize / sampleRate >= pruneThresh`; it writes no note
when `n - 1` is below that quotient, in particular when the track duration
`n * stepSize / sampleRate` is below `pruneThresh`. -/
theorem constant_track_note_count (M : Libm K) (N : MonoNote K) (s : PYinVamp K H) (n : Nat)
    (freq : K) (hM : ∀ x : K, 0 < x → M.pow 2 (M.log x / M.log 2) = x)
    (htrack : s.m_pitchTrack = List.replicate n freq) (hf : 0 < freq)
    (hn2 : 2 ≤ n) (hn64 : n < 2 ^ 64) (hstep : 0 < s.m_stepSize)
    (hrate : 0 < s.m_inputSampleRate)
    (hstate : ∀ i, i < n → ∃ st, (s.mnOut M N)[i]? = some st ∧ st < 3)
    (hlevel : ∀ i, i + 2 < n → ∃ a b, s.m_level[i]? = some a ∧ s.m_level[i + 2]? = some b ∧
      (fdiv a b).gt s.m_onsetSensitivity = true) :
    (s.m_inputSampleRate * s.m_pruneThresh / (s.m_stepSize : K) ≤ ((n - 1 : Nat) : K) →
      s.addNoteFeatures M N =
        some [{ timestamp := (0 : Int) * (s.m_stepSize : Int) + s.offset,
                duration := (((n - 1 : Nat) : Int) - 0) * (s.m_stepSize : Int),
                values := [freq] }]) ∧
    (((n - 1 : Nat) : K) < s.m_inputSampleRate * s.m_pruneThresh / (s.m_stepSize : K) →
      s.addNoteFeatures M N = some []) ∧
    ((n : K) * (s.m_stepSize : K) / s.m_inputSampleRate < s.m_pruneThresh →
      s.addNoteFeatures M N = some []) := by
  have h := constant_track_notes M N s n freq htrack hf hn2 hn64 hstate hlevel
  rw [minNoteFrames_le s hstep, pitchFreq_logPitch M hM freq hf] at h
  have hs : (0 : K) < (s.m_stepSize : K) := by exact_mod_cast hstep
  have hshort : ((n - 1 : Nat) : K) < s.m_inputSampleRate * s.m_pruneThresh / (s.m_stepSize : K) →
      s.addNoteFeatures M N = some [] := by
    intro hlt
    rw [h, if_neg (by simpa using hlt)]
  refine ⟨?_, hshort, ?_⟩
  · intro hle
    rw [h, if_pos (by simpa using hle)]
    simp
  · intro hd
    apply hshort
    have h1 : (n : K) * (s.m_stepSize : K) < s.m_pruneThresh * s.m_inputSampleRate :=
      (div_lt_iff₀ hrate).mp hd
    have h2 : (n : K) < s.m_inputSampleRate * s.m_pruneThresh / (s.m_stepSize : K) := by
      rw [lt_div_iff₀ hs]
      linarith
    have h3 : ((n - 1 : Nat) : K) ≤ (n : K) := by exact_mod_cast Nat.sub_le n 1
    linarith

/-- Claim C3 as amended, applied to five frames voiced at 440 Hz: one note
of 440 Hz from frame 0 to frame 4. -/
theorem constant_track_note_count_witness :
    (sampleVamp [(440 : ℝ), 440, 440, 440, 440] [1, 1, 1, 1, 1]).addNoteFeatures
        (Libm.mk Real.log (fun a b => a ^ b) Real.sqrt) (sampleNote [1, 1, 1, 1, 1]) =
      some [{ timestamp := 512, duration := 1024, values := [440] }] := by
  have h := (constant_track_note_count (Libm.mk Real.log (fun a b => a ^ b) Real.sqrt)
    (sampleNote [1, 1, 1, 1, 1]) (sampleVamp [(440 : ℝ), 440, 440, 440, 440] [1, 1, 1, 1, 1])
    5 440 real_pow_log rfl (by norm_num) (by norm_num) (by norm_num)
    (by simp [sampleVamp]) (by norm_num [sampleVamp])
    (by intro i hi; interval_cases i <;> simp [PYinVamp.mnOut, sampleNote])
    (by
      intro i hi
      have hi2 : i < 3 := by omega
      interval_cases i <;> norm_num [sampleVamp, fdiv, FDiv.gt])).1
  rw [h (by norm_num [sampleVamp])]
  norm_num [sampleVamp, PYinVamp.offset]

/-- Claim C2 fails: at 8000 Hz with step 256 and prune threshold 0.1 s the
rounded minimum is 3 frames; the run of frames 0 to 2, closed at frame 3,
has 3 frames, and no note is written for it. -/
theorem run_of_rounded_minimum_no_note :
    round ((8000 : ℝ) * (1 / 10) / 256) = 3 ∧
    (sampleVamp [(440 : ℝ), 440, 440, -1, -1] [1, 1, 1, 1, 1]).noteRuns
        (Libm.mk Real.log (fun a b => a ^ b) Real.sqrt) (sampleNote [1, 1, 1, 3, 3]) = [(0, 3)] ∧
    (sampleVamp [(440 : ℝ), 440, 440, -1, -1] [1, 1, 1, 1, 1]).addNoteFeatures
        (Libm.mk Real.log (fun a b => a ^ b) Real.sqrt) (sampleNote [1, 1, 1, 3, 3]) = some [] := by
  have hok : (sampleVamp [(440 : ℝ), 440, 440, -1, -1] [1, 1, 1, 1, 1]).NoteInputOk
      (Libm.mk Real.log (fun a b => a ^ b) Real.sqrt) (sampleNote [1, 1, 1, 3, 3]) := by
    simp [PYinVamp.NoteInputOk, PYinVamp.mnOut, sampleNote, sampleVamp]
  have hruns : (sampleVamp [(440 : ℝ), 440, 440, -1, -1] [1, 1, 1, 1, 1]).noteRuns
        (Libm.mk Real.log (fun a b => a ^ b) Real.sqrt) (sampleNote [1, 1, 1, 3, 3]) = [(0, 3)] := by
    rw [noteRuns_of_flags _ _ _ [true, true, true, false, false]]
    · rfl
    · intro i hi
      have hi5 : i < 5 := hi
      interval_cases i <;>
        norm_num [PYinVamp.mnOut, PYinVamp.smoothedPitch, smoothedPitchOf, sampleNote,
          sampleVamp, isVoicedAt, fdiv, FDiv.gt]
  refine ⟨?_, hruns, ?_⟩
  · rw [round_eq, Int.floor_eq_iff]
    norm_num
  · rw [addNoteFeatures_eq _ _ _ hok, hruns]
    have hstep : 0 < (sampleVamp [(440 : ℝ), 440, 440, -1, -1] [1, 1, 1, 1, 1]).m_stepSize := by
      simp [sampleVamp]
    simp only [runNotes, List.filterMap_cons, List.filterMap_nil, minNoteFrames_le _ hstep]
    norm_num [sampleVamp]

/-- Claim C2 as amended: on well-formed input with a positive step size the
notes written are those of the voiced runs, in the order in which the runs
are closed (at a voiced to not-voiced transition or at the last frame);
the buffer of the run from `a` to `b` has `b - a` values, and the run
writes one note if and only if `b - a` is at least the quotient
`sampleRate * pruneThresh / stepSize`, which is not rounded; a shorter run
writes nothing. -/
theorem note_written_iff_run_reaches_quotient (M : Libm K) (N : MonoNote K)
    (s : PYinVamp K H) (hok : s.NoteInputOk M N) (hstep : 0 < s.m_stepSize) :
    s.addNoteFeatures M N = some (runNotes M s (s.smoothedPitch M) (s.noteRuns M N)) ∧
    ∀ a b, (a, b) ∈ s.noteRuns M N →
      (runPitches (s.smoothedPitch M) a b).length = b - a ∧
      (s.m_inputSampleRate * s.m_pruneThresh / (s.m_stepSize : K) ≤ ((b - a : Nat) : K) →
        ∃ f, runNotes M s (s.smoothedPitch M) [(a, b)] = [f]) ∧
      (((b - a : Nat) : K) < s.m_inputSampleRate * s.m_pruneThresh / (s.m_stepSize : K) →
        runNotes M s (s.smoothedPitch M) [(a, b)] = []) := by
  refine ⟨addNoteFeatures_eq M N s hok, ?_⟩
  intro a b hab
  have hlt : a < b := ((mem_noteRuns M N s a b).mp hab).2.1
  have hlen := runPitches_length (s.smoothedPitch M) a b
  have hne : runPitches (s.smoothedPitch M) a b ≠ [] := by
    intro h0
    rw [h0] at hlen
    simp at hlen
    omega
  obtain ⟨m, -, -, hnf⟩ := noteFeature_eq M s (a : Int) b (runPitches (s.smoothedPitch M) a b) hne
  refine ⟨hlen, ?_, ?_⟩
  · intro hle
    simp only [runNotes, List.filterMap_cons, List.filterMap_nil, minNoteFrames_le s hstep]
    rw [if_pos (by simpa using hle), hnf]
    exact ⟨_, rfl⟩
  · intro hshort
    simp only [runNotes, List.filterMap_cons, List.filterMap_nil, minNoteFrames_le s hstep]
    rw [if_neg (by simpa using hshort)]

/-- Claim C2 as amended, applied to four frames at 440 Hz followed by two
unvoiced frames: the run of frames 0 to 3 reaches the quotient 3.125 and one
note is written. -/
theorem note_written_iff_run_reaches_quotient_witness :
    ∃ f, (sampleVamp [(440 : ℝ), 440, 440, 440, -1, -1] [1, 1, 1, 1, 1, 1]).addNoteFeatures
        (Libm.mk Real.log (fun a b => a ^ b) Real.sqrt) (sampleNote [1, 1, 1, 1, 3, 3]) =
      some [f] := by
  have hok : (sampleVamp [(440 : ℝ), 440, 440, 440, -1, -1] [1, 1, 1, 1, 1, 1]).NoteInputOk
      (Libm.mk Real.log (fun a b => a ^ b) Real.sqrt) (sampleNote [1, 1, 1, 1, 3, 3]) := by
    simp [PYinVamp.NoteInputOk, PYinVamp.mnOut, sampleNote, sampleVamp]
  have hstep : 0 < (sampleVamp [(440 : ℝ), 440, 440, 440, -1, -1]
      [1, 1, 1, 1, 1, 1]).m_stepSize := by
    simp [sampleVamp]
  have hruns : (sampleVamp [(440 : ℝ), 440, 440, 440, -1, -1] [1, 1, 1, 1, 1, 1]).noteRuns
      (Libm.mk Real.log (fun a b => a ^ b) Real.sqrt) (sampleNote [1, 1, 1, 1, 3, 3]) =
        [(0, 4)] := by
    rw [noteRuns_of_flags _ _ _ [true, true, true, true, false, false]]
    · rfl
    · intro i hi
      have hi6 : i < 6 := hi
      interval_cases i <;>
        norm_num [PYinVamp.mnOut, PYinVamp.smoothedPitch, smoothedPitchOf, sampleNote,
          sampleVamp, isVoicedAt, fdiv, FDiv.gt]
  obtain ⟨h1, h2⟩ := note_written_iff_run_reaches_quotient
    (Libm.mk Real.log (fun a b => a ^ b) Real.sqrt) (sampleNote [1, 1, 1, 1, 3, 3])
    (sampleVamp [(440 : ℝ), 440, 440, 440, -1, -1] [1, 1, 1, 1, 1, 1]) hok hstep
  obtain ⟨f, hf⟩ := (h2 0 4 (by rw [hruns]; simp)).2.1 (by norm_num [sampleVamp])
  exact ⟨f, by rw [h1, hruns, hf]⟩

/-- The timestamp that `process` gives to the features of a frame is the
frame timestamp plus the analysis offset. -/
theorem process_timestamp (M : Libm K) (P : MonoPitchHMM K H) (s : PYinVamp K H)
    (frame : List K) (ts : RealTime) (r : PYinVamp K H × FeatureSet K)
    (h : s.process M P frame ts = some r) :
    r.2.f0candidates.map (fun f => f.timestamp) = [ts + s.offset] := by
  unfold PYinVamp.process at h
  simp only at h
  split at h
  · exact Option.noConfusion h
  · split at h
    · exact Option.noConfusion h
    · split at h
      · exact Option.noConfusion h
      · simp only [Option.some.injEq] at h
        rw [← h]
        rfl

/-- Claim C7: every note written by `addNoteFeatures` belongs to a voiced run
that began at a frame `a` and was closed at a frame `b`; when the loop
reaches frame `b` its onset frame is `a` and its buffer holds `b - a`
values; the note has timestamp `a * stepSize + offset` and duration
`(b - a) * stepSize`, where `offset` is `blockSize / 2` with precise timing
and `blockSize / 4` otherwise, the offset that `process` adds to the
timestamp of a frame. -/
theorem note_spans_run (M : Libm K) (N : MonoNote K) (s : PYinVamp K H)
    (hok : s.NoteInputOk M N) :
    s.offset = (if s.m_preciseTime = 1 then ((s.m_blockSize / 2 : Nat) : Int)
      else ((s.m_blockSize / 4 : Nat) : Int)) ∧
    (∀ (P : MonoPitchHMM K H) (frame : List K) (ts : RealTime) (r : PYinVamp K H × FeatureSet K),
      s.process M P frame ts = some r →
        r.2.f0candidates.map (fun f => f.timestamp) = [ts + s.offset]) ∧
    ∃ notes, s.addNoteFeatures M N = some notes ∧
      ∀ f ∈ notes, ∃ a b st,
        a < b ∧ b < s.m_pitchTrack.length ∧
        (∀ i, a ≤ i → i < b → s.voiced M N i = true) ∧
        (s.voiced M N b = false ∨ b = s.m_pitchTrack.length - 1) ∧
        (a = 0 ∨ s.voiced M N (a - 1) = false) ∧
        noteLoop M s (s.mnOut M N) (s.smoothedPitch M) s.m_pitchTrack.length b = some st ∧
        st.onsetFrame = (a : Int) ∧
        st.notePitchTrack.length = b - a ∧
        f.timestamp = (a : Int) * (s.m_stepSize : Int) + s.offset ∧
        f.duration = ((b : Int) - (a : Int)) * (s.m_stepSize : Int) := by
  refine ⟨rfl, fun P frame ts r h => process_timestamp M P s frame ts r h,
    _, addNoteFeatures_eq M N s hok, ?_⟩
  intro f hf
  have hruns : ∀ ab ∈ s.noteRuns M N, ab.1 < ab.2 := by
    rintro ⟨a, b⟩ hab
    exact ((mem_noteRuns M N s a b).mp hab).2.1
  obtain ⟨a, b, m, hab, -, -, -, hfeq⟩ :=
    mem_runNotes M s (s.smoothedPitch M) (s.noteRuns M N) hruns f hf
  obtain ⟨hb, hlt, hall, hclose, hleft⟩ := (mem_noteRuns M N s a b).mp hab
  obtain ⟨st, hst, -, -, honset, hbuf⟩ := noteLoop_state M s (s.mnOut M N) (s.smoothedPitch M)
    s.m_pitchTrack.length (s.voiced M N) (voiced_spec M N s hok) b (by omega)
  have hrs : runStart (inRun (s.voiced M N) s.m_pitchTrack.length) b = a := by
    have hcl : (a, b) ∈ closedRuns (inRun (s.voiced M N) s.m_pitchTrack.length)
        s.m_pitchTrack.length := hab
    obtain ⟨-, -, h3, -, h5⟩ := (mem_closedRuns _ _ a b).mp hcl
    exact runStart_unique _ b a (by omega) h3 h5
  rw [hrs] at honset hbuf
  refine ⟨a, b, st, hlt, hb, hall, hclose, hleft, hst, honset hlt, ?_, ?_, ?_⟩
  · rw [hbuf, runPitches_length]
  · rw [hfeq]
  · rw [hfeq]

/-- Claim C7 applied to four frames at 440 Hz followed by two unvoiced
frames, with step 256 and block 2048: every note starts at `a * 256 + 512`
and lasts `(b - a) * 256` samples for frames `a < b`. -/
theorem note_spans_run_witness :
    ∃ notes, (sampleVamp [(440 : ℝ), 440, 440, 440, -1, -1] [1, 1, 1, 1, 1, 1]).addNoteFeatures
        (Libm.mk Real.log (fun a b => a ^ b) Real.sqrt) (sampleNote [1, 1, 1, 1, 3, 3]) =
          some notes ∧
      ∀ f ∈ notes, ∃ a b : Nat, a < b ∧ f.timestamp = (a : Int) * 256 + 512 ∧
        f.duration = ((b : Int) - (a : Int)) * 256 := by
  have hok : (sampleVamp [(440 : ℝ), 440, 440, 440, -1, -1] [1, 1, 1, 1, 1, 1]).NoteInputOk
      (Libm.mk Real.log (fun a b => a ^ b) Real.sqrt) (sampleNote [1, 1, 1, 1, 3, 3]) := by
    simp [PYinVamp.NoteInputOk, PYinVamp.mnOut, sampleNote, sampleVamp]
  obtain ⟨hoff, -, notes, hn, hall⟩ := note_spans_run
    (Libm.mk Real.log (fun a b => a ^ b) Real.sqrt) (sampleNote [1, 1, 1, 1, 3, 3])
    (sampleVamp [(440 : ℝ), 440, 440, 440, -1, -1] [1, 1, 1, 1, 1, 1]) hok
  have hoff2 : (sampleVamp [(440 : ℝ), 440, 440, 440, -1, -1] [1, 1, 1, 1, 1, 1]).offset = 512 := by
    rw [hoff]
    norm_num [sampleVamp]
  refine ⟨notes, hn, ?_⟩
  intro f hf
  obtain ⟨a, b, st, hlt, -, -, -, -, -, -, -, ht, hd⟩ := hall f hf
  rw [hoff2] at ht
  exact ⟨a, b, hlt, ht, hd⟩

/-- Claim C10: every note written by `addNoteFeatures` comes from a run
buffer of at least one log-pitch value; with `m` the element at index
`n / 2` of the buffer sorted in ascending order, `m` is one of the values
of the buffer and the frequency of the note is `440 * 2^((m - 69) / 12)`;
when all values of the buffer are the log-pitch of one frequency, the
frequency of the note is that frequency. -/
theorem note_frequency_is_median (M : Libm K) (N : MonoNote K) (s : PYinVamp K H)
    (hM : ∀ x : K, 0 < x → M.pow 2 (M.log x / M.log 2) = x)
    (hok : s.NoteInputOk M N) :
    ∃ notes, s.addNoteFeatures M N = some notes ∧
      ∀ f ∈ notes, ∃ a b m,
        (a, b) ∈ s.noteRuns M N ∧
        1 ≤ (runPitches (s.smoothedPitch M) a b).length ∧
        ((runPitches (s.smoothedPitch M) a b).insertionSort (fun x y => x ≤ y))[
          (runPitches (s.smoothedPitch M) a b).length / 2]? = some m ∧
        m ∈ runPitches (s.smoothedPitch M) a b ∧
        f.values = [440 * M.pow 2 ((m - 69) / 12)] ∧
        (∀ freq : K, 0 < freq →
          (∀ x ∈ runPitches (s.smoothedPitch M) a b,
            x = 69 + 12 * (M.log (freq / 440) / M.log 2)) → f.values = [freq]) := by
  refine ⟨_, addNoteFeatures_eq M N s hok, ?_⟩
  intro f hf
  have hruns : ∀ ab ∈ s.noteRuns M N, ab.1 < ab.2 := by
    rintro ⟨a, b⟩ hab
    exact ((mem_noteRuns M N s a b).mp hab).2.1
  obtain ⟨a, b, m, hab, -, hmed, hmem, hfeq⟩ :=
    mem_runNotes M s (s.smoothedPitch M) (s.noteRuns M N) hruns f hf
  have hlt : a < b := hruns (a, b) hab
  refine ⟨a, b, m, hab, ?_, hmed, hmem, ?_, ?_⟩
  · rw [runPitches_length]; omega
  · rw [hfeq]
    simp [pitchFreq, mul_comm]
  · intro freq hfreq hconst
    have hm : m = logPitch M freq := by
      rw [hconst m hmem]
      unfold logPitch
      ring
    rw [hfeq, hm, pitchFreq_logPitch M hM freq hfreq]

/-- Claim C10 applied, with the real `log` and `pow`, to four frames at
440 Hz followed by two unvoiced frames: every note has a frequency of the
form `440 * 2^((m - 69) / 12)`. -/
theorem note_frequency_is_median_witness :
    ∃ notes, (sampleVamp [(440 : ℝ), 440, 440, 440, -1, -1] [1, 1, 1, 1, 1, 1]).addNoteFeatures
        (Libm.mk Real.log (fun a b => a ^ b) Real.sqrt) (sampleNote [1, 1, 1, 1, 3, 3]) =
          some notes ∧
      ∀ f ∈ notes, ∃ m : ℝ, f.values = [440 * (2 : ℝ) ^ ((m - 69) / 12)] := by
  have hok : (sampleVamp [(440 : ℝ), 440, 440, 440, -1, -1] [1, 1, 1, 1, 1, 1]).NoteInputOk
      (Libm.mk Real.log (fun a b => a ^ b) Real.sqrt) (sampleNote [1, 1, 1, 1, 3, 3]) := by
    simp [PYinVamp.NoteInputOk, PYinVamp.mnOut, sampleNote, sampleVamp]
  obtain ⟨notes, hn, hall⟩ := note_frequency_is_median
    (Libm.mk Real.log (fun a b => a ^ b) Real.sqrt) (sampleNote [1, 1, 1, 1, 3, 3])
    (sampleVamp [(440 : ℝ), 440, 440, 440, -1, -1] [1, 1, 1, 1, 1, 1]) real_pow_log hok
  refine ⟨notes, hn, ?_⟩
  intro f hf
  obtain ⟨a, b, m, -, -, -, -, hv, -⟩ := hall f hf
  exact ⟨m, hv⟩

/-! ### Fixed-lag emission of `process` -/

/-- One call of the fixed-lag block with a window of at most `L` buffered
frames: below `L` the frame is only buffered; at `L` the oldest frame is
dropped and one feature is pushed, carrying the timestamp at the head of the
window that remains. -/
theorem trackFrame_window (P : MonoPitchHMM K H) (L : Nat) (hL : 1 ≤ L)
    (hlag : ∀ h, P.m_fixedLag h = (L : Int)) (htrack : ∀ h, P.track h ≠ [])
    (s : PYinVamp K H) (hfl : 1 / 2 < s.m_fixedLag) (hmode : s.m_outputUnvoiced ≠ 0)
    (tpp : List (K × K)) (t : RealTime)
    (hlen : s.m_pitchProb.length = s.m_timestamp.length) (hw : s.m_timestamp.length ≤ L) :
    ∃ s1 out, trackFrame P s tpp t = some (s1, out) ∧
      s1.m_fixedLag = s.m_fixedLag ∧ s1.m_outputUnvoiced = s.m_outputUnvoiced ∧
      s1.m_pitchProb.length = s1.m_timestamp.length ∧
      (s.m_timestamp.length < L → out = [] ∧ s1.m_timestamp = s.m_timestamp ++ [t]) ∧
      (s.m_timestamp.length = L →
        s1.m_timestamp = (s.m_timestamp ++ [t]).tail ∧
        out.map (fun f => f.timestamp) = ((s.m_timestamp ++ [t]).tail)[0]?.toList ∧
        out.length = 1) := by
  unfold trackFrame fixedLagEmit
  simp only [hlag, if_pos hfl, List.length_append, List.length_singleton]
  by_cases hlt : s.m_timestamp.length < L
  · have hne : ¬ (((s.m_timestamp.length + 1 : Nat) : Int) = (L : Int) + 1) := by
      intro h
      have : s.m_timestamp.length + 1 = L + 1 := by exact_mod_cast h
      omega
    rw [if_neg hne]
    refine ⟨_, _, rfl, rfl, rfl, ?_, ?_, ?_⟩
    · simp [hlen]
    · intro _; exact ⟨rfl, rfl⟩
    · intro h; omega
  · have heq : s.m_timestamp.length = L := by omega
    have hpos : (((s.m_timestamp.length + 1 : Nat) : Int) = (L : Int) + 1) := by
      rw [heq]; push_cast; rfl
    rw [if_pos hpos]
    obtain ⟨x, ts, hts⟩ : ∃ x ts, s.m_timestamp = x :: ts := by
      cases hs : s.m_timestamp with
      | nil => rw [hs] at heq; simp at heq; omega
      | cons x ts => exact ⟨x, ts, rfl⟩
    obtain ⟨y, pp, hpp⟩ : ∃ y pp, s.m_pitchProb = y :: pp := by
      cases hs : s.m_pitchProb with
      | nil => rw [hs, hts] at hlen; simp at hlen
      | cons y pp => exact ⟨y, pp, rfl⟩
    obtain ⟨st0, path, hpath⟩ : ∃ st0 path, P.track
        (P.process s.m_pitchHmm (P.calculateObsProb s.m_pitchHmm tpp)) = st0 :: path := by
      cases hp : P.track (P.process s.m_pitchHmm (P.calculateObsProb s.m_pitchHmm tpp)) with
      | nil => exact absurd hp (htrack _)
      | cons st0 path => exact ⟨st0, path, rfl⟩
    have hlen2 : pp.length = ts.length := by
      rw [hts, hpp] at hlen
      simpa using hlen
    obtain ⟨p0, hp0⟩ : ∃ p0, (pp ++ [tpp])[0]? = some p0 := by
      cases pp with
      | nil => exact ⟨tpp, rfl⟩
      | cons p0 rest => exact ⟨p0, by simp⟩
    obtain ⟨t0, ht0⟩ : ∃ t0, (ts ++ [t])[0]? = some t0 := by
      cases ts with
      | nil => exact ⟨t, rfl⟩
      | cons t0 rest => exact ⟨t0, by simp⟩
    simp only [hts, hpp, List.cons_append, List.isEmpty_cons, Bool.false_eq_true, if_false,
      hpath, List.getElem?_cons_zero, hp0, ht0]
    have hout : ∃ vals, processPitchOutput s.m_outputUnvoiced
        (P.nearestFreq (P.process s.m_pitchHmm (P.calculateObsProb s.m_pitchHmm tpp)) st0 p0) =
        some vals := by
      unfold processPitchOutput
      rw [if_neg (fun h => hmode h.2)]
      split <;> exact ⟨_, rfl⟩
    obtain ⟨vals, hvals⟩ := hout
    simp only [hvals]
    refine ⟨_, _, rfl, rfl, rfl, ?_, ?_, ?_⟩
    · simp [hlen2]
    · intro h; rw [hts] at hlt; exact absurd h hlt
    · intro _
      refine ⟨rfl, ?_, rfl⟩
      simp [ht0]

/-- A stream of frames fed to the fixed-lag block from a window of at most
`L` buffered frames: every call pushes at most one feature, and the call
that brings the number of consumed frames to `c + 1` with `c >= L` pushes
the timestamp of the frame at position `c - L + 1`, not the one at
position `c - L`. -/
theorem trackFrames_window (P : MonoPitchHMM K H) (L : Nat) (hL : 1 ≤ L)
    (hlag : ∀ h, P.m_fixedLag h = (L : Int)) (htrack : ∀ h, P.track h ≠ [])
    (frames : List (List (K × K) × RealTime)) :
    ∀ (s : PYinVamp K H), 1 / 2 < s.m_fixedLag → s.m_outputUnvoiced ≠ 0 →
      s.m_pitchProb.length = s.m_timestamp.length → s.m_timestamp.length ≤ L →
      ∃ s2 outs, trackFrames P s frames = some (s2, outs) ∧ outs.length = frames.length ∧
        ∀ j, j < frames.length →
          (outs.getD j []).length ≤ 1 ∧
          (outs.getD j []).map (fun f => f.timestamp) =
            if s.m_timestamp.length + j < L then []
            else ((s.m_timestamp ++ frames.map Prod.snd)[
              s.m_timestamp.length + j - L + 1]?).toList := by
  induction frames with
  | nil =>
    intro s _ _ _ _
    exact ⟨s, [], rfl, rfl, fun j hj => absurd hj (by simp)⟩
  | cons fr rest ih =>
    intro s hfl hmode hlen hw
    obtain ⟨s1, out, h1, hfl1, hmode1, hlen1, hlow, hfull⟩ :=
      trackFrame_window P L hL hlag htrack s hfl hmode fr.1 fr.2 hlen hw
    have hw1 : s1.m_timestamp.length ≤ L := by
      by_cases hlt : s.m_timestamp.length < L
      · rw [(hlow hlt).2]; simp; omega
      · have heq : s.m_timestamp.length = L := by omega
        rw [(hfull heq).1]; simp; omega
    obtain ⟨s2, outs, h2, hlen2, hall⟩ := ih s1 (by rw [hfl1]; exact hfl)
      (by rw [hmode1]; exact hmode) hlen1 hw1
    refine ⟨s2, out :: outs, ?_, by simp [hlen2], ?_⟩
    · simp only [trackFrames, h1, h2]
    · intro j hj
      by_cases hlt : s.m_timestamp.length < L
      · obtain ⟨hout, hts⟩ := hlow hlt
        cases j with
        | zero => simp [hout, hlt]
        | succ j =>
          have hj2 : j < rest.length := by simpa using hj
          obtain ⟨ha, hb⟩ := hall j hj2
          simp only [List.getD_cons_succ]
          refine ⟨ha, ?_⟩
          rw [hb, hts]
          simp only [List.length_append, List.length_singleton, List.map_cons,
            List.append_assoc, List.singleton_append]
          have e1 : s.m_timestamp.length + 1 + j = s.m_timestamp.length + (j + 1) := by omega
          rw [e1]
      · have heq : s.m_timestamp.length = L := by omega
        obtain ⟨hts, hmap, hone⟩ := hfull heq
        obtain ⟨x, ts, hx⟩ : ∃ x ts, s.m_timestamp = x :: ts := by
          cases hs : s.m_timestamp with
          | nil => rw [hs] at heq; simp at heq; omega
          | cons x ts => exact ⟨x, ts, rfl⟩
        have htl : ts.length + 1 = L := by rw [hx] at heq; simpa using heq
        cases j with
        | zero =>
          simp only [List.getD_cons_zero, Nat.add_zero]
          refine ⟨by omega, ?_⟩
          rw [hmap, if_neg (by omega), hx]
          have e1 : (x :: ts).length - L + 1 = 1 := by simp; omega
          rw [e1]
          simp only [List.cons_append, List.tail_cons, List.map_cons, List.getElem?_cons_succ]
          cases ts with
          | nil => simp
          | cons y ys => simp
        | succ j =>
          have hj2 : j < rest.length := by simpa using hj
          obtain ⟨ha, hb⟩ := hall j hj2
          simp only [List.getD_cons_succ]
          refine ⟨ha, ?_⟩
          rw [hb, hts, hx]
          simp only [List.cons_append, List.tail_cons, List.length_append,
            List.length_singleton, List.length_cons, List.map_cons, List.append_assoc,
            List.singleton_append, List.nil_append, List.length_nil, Nat.zero_add]
          rw [if_neg (by omega), if_neg (by omega)]
          have e1 : ts.length + 1 + j - L + 1 = j + 1 := by omega
          have e2 : ts.length + 1 + (j + 1) - L + 1 = (j + 1) + 1 := by omega
          rw [e1, e2, List.getElem?_cons_succ]

/-- Claim C1, evaluated on the code with a tracker of lag 1 and frames at
0, 256 and 512 samples (analysis offset 512): the call that consumes frame 0
pushes nothing, the call that consumes frame 1 pushes the timestamp of
frame 1 itself, not of frame 0, and the call that consumes frame 2 pushes
the timestamp of frame 2; the timestamp of frame 0 is never pushed. -/
theorem fixedLag_pushes_second_oldest_timestamp :
    (trackFrames (lagOneTracker (K := ℚ)) (sampleVamp [] [])
        [([], 0 + 512), ([], 256 + 512), ([], 512 + 512)]).map
      (fun r => r.2.map (fun fs => fs.map (fun f => f.timestamp))) =
      some [[], [256 + 512], [512 + 512]] := by
  norm_num [trackFrames, trackFrame, fixedLagEmit, lagOneTracker, sampleVamp, processPitchOutput]

/-! ### Last two frames of `addNoteFeatures` -/

/-- With at least two frames, `isVoiced` at each of the last two frames is
(note state below 3 and pitch present), whatever the levels are: no level is
read there. -/
theorem isVoicedAt_last_two (mnOut : List Int) (sp : List (List (K × K))) (level : List K)
    (sens : K) (nFrame i : Nat) (noteState : Int) (l : List (K × K))
    (hn2 : 2 ≤ nFrame) (hn : nFrame < 2 ^ 64) (hi : nFrame ≤ i + 2)
    (hns : mnOut[i]? = some noteState) (hsp : sp[i]? = some l) :
    isVoicedAt mnOut sp level sens nFrame i = some (decide (noteState < 3 ∧ 0 < l.length)) := by
  have hw : (nFrame + 2 ^ 64 - 2) % 2 ^ 64 ≤ i := by
    have : (nFrame + 2 ^ 64 - 2) % 2 ^ 64 = nFrame - 2 := by omega
    omega
  unfold isVoicedAt
  simp only [hns, hsp, if_pos hw]
  by_cases h1 : noteState < 3 <;> by_cases h2 : 0 < l.length <;> simp [h1, h2]

/-- Claim C11, evaluated on the code: for a pitch track of one frame the
`size_t` value `nFrame-2` wraps to `2^64 - 1`, the test `iFrame >= nFrame-2`
fails at frame 0, and the frame, in note state 1 with a pitch, reads
`m_level[2]`: out of range with the one recorded level, and with a level of
2 at that index the frame is not voiced although its note state is below 3
and it has a pitch. -/
theorem single_frame_reads_level_out_of_range :
    (1 + 2 ^ 64 - 2) % 2 ^ 64 = 2 ^ 64 - 1 ∧
    isVoicedAt [1] [[((69 : ℚ), 9 / 10)]] [1] (7 / 10) 1 0 = none ∧
    isVoicedAt [1] [[((69 : ℚ), 9 / 10)]] [1, 1, 2] (7 / 10) 1 0 = some false ∧
    (sampleVamp [(440 : ℝ)] [1]).addNoteFeatures
        (Libm.mk Real.log (fun a b => a ^ b) Real.sqrt) (sampleNote [1]) = none := by
  refine ⟨by norm_num, ?_, ?_, ?_⟩
  · norm_num [isVoicedAt]
  · norm_num [isVoicedAt, fdiv, FDiv.gt]
  · norm_num [PYinVamp.addNoteFeatures, noteLoop, noteFrame, isVoicedAt, smoothedPitchOf,
      sampleNote, sampleVamp, List.range_succ]

/-! ### Attenuation factor of `process` -/

/-- The probabilities that `process` hands to the tracker on a
low-amplitude frame are the candidate probabilities times the factor. -/
theorem tempPitchProb_low (M : Libm K) (lowAmp rms : K) (fp : List (K × K)) :
    (tempPitchProb M lowAmp rms true fp).map Prod.snd =
      fp.map (fun c => c.2 * attenuationFactor rms lowAmp) := by
  simp [tempPitchProb, attenuationFactor, Function.comp_def]

/-- Claim C12: for a threshold `T > 0` the factor `(RMS + 0.01 T) / (1.01 T)`
of `process` is `1/101` at `RMS = 0`, is 1 at `RMS = T`, is strictly
increasing in `RMS`, lies in `[0, 1]` for `0 <= RMS <= T`, and the
attenuated probability of a candidate of non-negative probability does not
exceed the probability. -/
theorem attenuationFactor_bounds (T : K) (hT : 0 < T) :
    attenuationFactor 0 T = 1 / 101 ∧
    attenuationFactor T T = 1 ∧
    (∀ r1 r2 : K, r1 < r2 → attenuationFactor r1 T < attenuationFactor r2 T) ∧
    (∀ r : K, 0 ≤ r → r ≤ T → 0 ≤ attenuationFactor r T ∧ attenuationFactor r T ≤ 1) ∧
    (∀ r p : K, 0 ≤ r → r ≤ T → 0 ≤ p → p * attenuationFactor r T ≤ p) ∧
    (∀ (M : Libm K) (r : K) (fp : List (K × K)),
      (tempPitchProb M T r true fp).map Prod.snd =
        fp.map (fun c => c.2 * attenuationFactor r T)) := by
  have hd : (0 : K) < 101 / 100 * T := by positivity
  have hne : T ≠ 0 := ne_of_gt hT
  have h0 : attenuationFactor 0 T = 1 / 101 := by
    unfold attenuationFactor
    field_simp
    ring
  have h1 : attenuationFactor T T = 1 := by
    unfold attenuationFactor
    field_simp
    ring
  have hmono : ∀ r1 r2 : K, r1 < r2 → attenuationFactor r1 T < attenuationFactor r2 T := by
    intro r1 r2 h
    unfold attenuationFactor
    exact div_lt_div_of_pos_right (by linarith) hd
  have hle : ∀ r1 r2 : K, r1 ≤ r2 → attenuationFactor r1 T ≤ attenuationFactor r2 T := by
    intro r1 r2 h
    rcases lt_or_eq_of_le h with h' | h'
    · exact le_of_lt (hmono r1 r2 h')
    · rw [h']
  have hrange : ∀ r : K, 0 ≤ r → r ≤ T →
      0 ≤ attenuationFactor r T ∧ attenuationFactor r T ≤ 1 := by
    intro r hr0 hrT
    constructor
    · have := hle 0 r hr0
      rw [h0] at this
      have : (0 : K) ≤ 1 / 101 := by positivity
      linarith
    · have := hle r T hrT
      rw [h1] at this
      exact this
  refine ⟨h0, h1, hmono, hrange, ?_, fun M r fp => tempPitchProb_low M T r fp⟩
  intro r p hr0 hrT hp
  have := (hrange r hr0 hrT).2
  calc p * attenuationFactor r T ≤ p * 1 := mul_le_mul_of_nonneg_left this hp
    _ = p := mul_one p

/-- Claim C12 applied to the default threshold 1/10 over the rationals. -/
theorem attenuationFactor_bounds_witness :
    attenuationFactor (0 : ℚ) (1 / 10) = 1 / 101 ∧ attenuationFactor (1 / 10 : ℚ) (1 / 10) = 1 ∧
      attenuationFactor (1 / 20 : ℚ) (1 / 10) ≤ 1 := by
  have h := attenuationFactor_bounds (1 / 10 : ℚ) (by norm_num)
  exact ⟨h.1, h.2.1, (h.2.2.2.1 (1 / 20) (by norm_num) (by norm_num)).2⟩

/-! ### Order of the notes of `addNoteFeatures` -/

/-- When the note loop returns after `k` frames, `isVoiced` was defined at
each of them. -/
theorem noteLoop_defined (M : Libm K) (s : PYinVamp K H) (mnOut : List Int)
    (sp : List (List (K × K))) (n k : Nat) (st : NoteLoop K)
    (h : noteLoop M s mnOut sp n k = some st) :
    ∀ i, i < k → ∃ b, isVoicedAt mnOut sp s.m_level s.m_onsetSensitivity n i = some b := by
  induction k generalizing st with
  | zero => intro i hi; omega
  | succ k ih =>
    rw [noteLoop_succ] at h
    cases hk : noteLoop M s mnOut sp n k with
    | none => rw [hk] at h; exact Option.noConfusion h
    | some st0 =>
      rw [hk, Option.some_bind] at h
      intro i hi
      by_cases hik : i = k
      · subst hik
        cases hv : isVoicedAt mnOut sp s.m_level s.m_onsetSensitivity n i with
        | none =>
          unfold noteFrame at h
          rw [hv] at h
          exact Option.noConfusion h
        | some b => exact ⟨b, rfl⟩
      · exact ih st0 hk i (by omega)

/-- Whenever `addNoteFeatures` returns, its notes are the notes of its voiced
runs, in the order in which the runs are closed. -/
theorem addNoteFeatures_some_eq (M : Libm K) (N : MonoNote K) (s : PYinVamp K H)
    (notes : List (Feature K)) (h : s.addNoteFeatures M N = some notes) :
    notes = runNotes M s (s.smoothedPitch M) (s.noteRuns M N) := by
  unfold PYinVamp.addNoteFeatures at h
  simp only [Option.map_eq_some'] at h
  obtain ⟨st, hst, hnotes⟩ := h
  have hdef := noteLoop_defined M s (s.mnOut M N) (s.smoothedPitch M) s.m_pitchTrack.length
    s.m_pitchTrack.length st hst
  have hv : ∀ i, i < s.m_pitchTrack.length →
      isVoicedAt (s.mnOut M N) (s.smoothedPitch M) s.m_level s.m_onsetSensitivity
        s.m_pitchTrack.length i = some (s.voiced M N i) := by
    intro i hi
    obtain ⟨b, hb⟩ := hdef i hi
    simp [PYinVamp.voiced, hb]
  obtain ⟨st2, hst2, hn2, -⟩ := noteLoop_state M s (s.mnOut M N) (s.smoothedPitch M)
    s.m_pitchTrack.length (s.voiced M N) hv s.m_pitchTrack.length (le_refl _)
  have hst3 : noteLoop M s (s.mnOut M N) (s.smoothedPitch M) s.m_pitchTrack.length
      s.m_pitchTrack.length = some st := hst
  rw [hst3] at hst2
  have : st = st2 := Option.some.inj hst2
  rw [← hnotes, this, hn2]
  rfl

/-- Every closed run ends before the next one begins. -/
theorem closedRuns_pairwise (r : Nat → Bool) (k : Nat) :
    List.Pairwise (fun r1 r2 : Nat × Nat => r1.2 < r2.1) (closedRuns r k) := by
  induction k with
  | zero => simp [closedRuns]
  | succ k ih =>
    rw [closedRuns_succ]
    by_cases hc : r k = false ∧ runStart r k < k
    · rw [if_pos hc, List.pairwise_append]
      refine ⟨ih, List.pairwise_singleton _ _, ?_⟩
      rintro ⟨a, b⟩ hab c hcmem
      rw [List.mem_singleton] at hcmem
      subst hcmem
      obtain ⟨hbk, -, -, hrb, -⟩ := (mem_closedRuns r k a b).mp hab
      show b < runStart r k
      by_contra hnot
      have := runStart_all r k b (by omega) hbk
      rw [this] at hrb
      exact Bool.noConfusion hrb
    · rw [if_neg hc, List.append_nil]
      exact ih

/-- Timestamps and durations of the notes of a list of non-empty runs: one
pair per run that reaches `minNoteFrames`. -/
theorem runNotes_times (M : Libm K) (s : PYinVamp K H) (sp : List (List (K × K)))
    (runs : List (Nat × Nat)) (hruns : ∀ ab ∈ runs, ab.1 < ab.2) :
    (runNotes M s sp runs).map (fun f => (f.timestamp, f.duration)) =
      (runs.filter (fun ab => (minNoteFrames s).le (((ab.2 - ab.1 : Nat) : K)))).map
        (fun ab => ((ab.1 : Int) * (s.m_stepSize : Int) + s.offset,
          ((ab.2 : Int) - (ab.1 : Int)) * (s.m_stepSize : Int))) := by
  induction runs with
  | nil => rfl
  | cons ab rest ih =>
    have hrest : ∀ x ∈ rest, x.1 < x.2 := fun x hx => hruns x (List.mem_cons_of_mem _ hx)
    have hlt : ab.1 < ab.2 := hruns ab (List.mem_cons_self _ _)
    have hne : runPitches sp ab.1 ab.2 ≠ [] := by
      intro h0
      have := runPitches_length sp ab.1 ab.2
      rw [h0] at this
      simp at this
      omega
    obtain ⟨m, -, -, hnf⟩ := noteFeature_eq M s (ab.1 : Int) ab.2 (runPitches sp ab.1 ab.2) hne
    have hcons : runNotes M s sp (ab :: rest) =
        runNotes M s sp [ab] ++ runNotes M s sp rest := by
      rw [← runNotes_append]; rfl
    rw [hcons, List.map_append, ih hrest]
    by_cases hlong : (minNoteFrames s).le (((ab.2 - ab.1 : Nat) : K)) = true
    · simp only [runNotes, List.filterMap_cons, List.filterMap_nil, if_pos hlong, hnf,
        List.map_cons, List.map_nil, List.singleton_append, List.filter_cons, if_true]
    · simp only [runNotes, List.filterMap_cons, List.filterMap_nil, if_neg hlong,
        List.map_nil, List.nil_append, List.filter_cons, if_false]

/-- Claim C13: with a positive step size, whenever `addNoteFeatures` returns
(which it does on every well-formed input) its notes are in chronological
order and do not overlap: every note has a strictly positive duration, every
note ends strictly before the next one starts, and the notes belong, in
order, to voiced runs `(a, b)` with `a < b` such that the closing frame of a
run lies strictly before the onset frame of the next one. -/
theorem notes_chronological (M : Libm K) (N : MonoNote K) (s : PYinVamp K H)
    (hstep : 0 < s.m_stepSize) :
    (s.NoteInputOk M N → ∃ notes, s.addNoteFeatures M N = some notes) ∧
    ∀ notes, s.addNoteFeatures M N = some notes →
      (∀ f ∈ notes, 0 < f.duration) ∧
      List.Chain' (fun f1 f2 : Feature K => f1.timestamp + f1.duration < f2.timestamp) notes ∧
      ∃ runs : List (Nat × Nat),
        List.Sublist runs (s.noteRuns M N) ∧
        notes.map (fun f => (f.timestamp, f.duration)) =
          runs.map (fun ab => ((ab.1 : Int) * (s.m_stepSize : Int) + s.offset,
            ((ab.2 : Int) - (ab.1 : Int)) * (s.m_stepSize : Int))) ∧
        (∀ ab ∈ runs, ab.1 < ab.2) ∧
        List.Chain' (fun r1 r2 : Nat × Nat => r1.2 < r2.1) runs := by
  refine ⟨fun hok => ⟨_, addNoteFeatures_eq M N s hok⟩, ?_⟩
  intro notes hnotes
  have heq := addNoteFeatures_some_eq M N s notes hnotes
  have hruns : ∀ ab ∈ s.noteRuns M N, ab.1 < ab.2 := by
    rintro ⟨a, b⟩ hab
    exact ((mem_noteRuns M N s a b).mp hab).2.1
  have hs : (0 : Int) < (s.m_stepSize : Int) := by exact_mod_cast hstep
  have hpw : List.Pairwise (fun r1 r2 : Nat × Nat => r1.2 < r2.1) (s.noteRuns M N) :=
    closedRuns_pairwise _ _
  have hsub : List.Sublist
      ((s.noteRuns M N).filter (fun ab => (minNoteFrames s).le (((ab.2 - ab.1 : Nat) : K))))
      (s.noteRuns M N) := List.filter_sublist _
  have hpw2 := hpw.sublist hsub
  have htimes := runNotes_times M s (s.smoothedPitch M) (s.noteRuns M N) hruns
  rw [← heq] at htimes
  have hruns2 : ∀ ab ∈ (s.noteRuns M N).filter
      (fun ab => (minNoteFrames s).le (((ab.2 - ab.1 : Nat) : K))), ab.1 < ab.2 :=
    fun ab hab => hruns ab (hsub.subset hab)
  refine ⟨?_, ?_, _, hsub, htimes, hruns2, hpw2.chain'⟩
  · intro f hf
    rw [heq] at hf
    obtain ⟨a, b, m, hab, -, -, -, hfeq⟩ :=
      mem_runNotes M s (s.smoothedPitch M) (s.noteRuns M N) hruns f hf
    have hlt : a < b := hruns (a, b) hab
    rw [hfeq]
    show (0 : Int) < ((b : Int) - (a : Int)) * (s.m_stepSize : Int)
    have : (0 : Int) < (b : Int) - (a : Int) := by omega
    exact mul_pos this hs
  · have hmapped : List.Pairwise (fun p1 p2 : RealTime × RealTime => p1.1 + p1.2 < p2.1)
        (notes.map (fun f => (f.timestamp, f.duration))) := by
      rw [htimes, List.pairwise_map]
      refine List.Pairwise.imp_of_mem ?_ hpw2
      intro r1 r2 h1 h2 hlt
      have h12 : ((r1.2 : Nat) : Int) < ((r2.1 : Nat) : Int) := by exact_mod_cast hlt
      show (r1.1 : Int) * (s.m_stepSize : Int) + s.offset +
          ((r1.2 : Int) - (r1.1 : Int)) * (s.m_stepSize : Int) <
        (r2.1 : Int) * (s.m_stepSize : Int) + s.offset
      nlinarith
    rw [List.pairwise_map] at hmapped
    exact hmapped.chain'

/-- Claim C13 applied to two blocks of four frames at 440 Hz, each followed
by an unvoiced frame: the notes returned follow one another without
overlap. -/
theorem notes_chronological_witness :
    ∃ notes,
      (sampleVamp [(440 : ℝ), 440, 440, 440, -1, 440, 440, 440, 440, -1]
          [1, 1, 1, 1, 1, 1, 1, 1, 1, 1]).addNoteFeatures
        (Libm.mk Real.log (fun a b => a ^ b) Real.sqrt)
        (sampleNote [1, 1, 1, 1, 3, 1, 1, 1, 1, 3]) = some notes ∧
      (∀ f ∈ notes, 0 < f.duration) ∧
      List.Chain' (fun f1 f2 : Feature ℝ => f1.timestamp + f1.duration < f2.timestamp) notes := by
  have h := notes_chronological (Libm.mk Real.log (fun a b => a ^ b) Real.sqrt)
    (sampleNote [1, 1, 1, 1, 3, 1, 1, 1, 1, 3])
    (sampleVamp [(440 : ℝ), 440, 440, 440, -1, 440, 440, 440, 440, -1]
      [1, 1, 1, 1, 1, 1, 1, 1, 1, 1]) (by simp [sampleVamp])
  obtain ⟨notes, hn⟩ := h.1
    (by simp [PYinVamp.NoteInputOk, PYinVamp.mnOut, sampleNote, sampleVamp])
  obtain ⟨h1, h2, -⟩ := h.2 notes hn
  exact ⟨notes, hn, h1, h2⟩

end PYin
